import Mathlib

/-!
Verification development for the statement ingestion and reconciliation
pipeline of the wealth-management repository.

The embedding is shallow: each TypeScript function of the pipeline becomes a
Lean definition over explicit data (JavaScript numbers are modelled as `ℚ`,
fallible code as `Except`/`Option`, the JavaScript `Map`/record objects as
association lists with insertion-order update-in-place semantics). Library
primitives that are not part of the repository (SHA-256, Unicode NFKD
decomposition, JavaScript number-to-string rendering, `Date` comparison of
ISO strings) are modelled by explicitly documented stand-ins; every theorem
below depends only on the properties of those primitives stated at their
definitions.
-/

/-! ## JavaScript character classes (ASCII fragment)

The source uses the regex classes `\w` (word characters: ASCII letters,
digits, underscore) and `\s` (whitespace). The model covers the ASCII
fragment, which is the range all claims and counterexamples live in. -/

/-- The regex class `\w`: ASCII letters, digits and the underscore. -/
def isWordChar (c : Char) : Bool :=
  c.isAlphanum || c = '_'

/-- The regex class `\s`, restricted to ASCII whitespace
(space, tab, carriage return, newline). -/
def isJsWs (c : Char) : Bool :=
  c.isWhitespace

/-- JavaScript `String.prototype.toLowerCase`, ASCII fragment. -/
def lowerStr (s : String) : String :=
  ⟨s.data.map Char.toLower⟩

/-- JavaScript `String.prototype.toUpperCase`, ASCII fragment. -/
def upperStr (s : String) : String :=
  ⟨s.data.map Char.toUpper⟩

/-- Strip leading and trailing whitespace from a character list. -/
def trimChars (l : List Char) : List Char :=
  ((l.dropWhile isJsWs).reverse.dropWhile isJsWs).reverse

/-- JavaScript `String.prototype.trim`. -/
def trimStr (s : String) : String :=
  ⟨trimChars s.data⟩

/-! ## The JavaScript `Map` (and string-keyed record object)

`Map.set` updates an existing key in place (preserving insertion order) and
appends fresh keys; `Map.delete` removes the key; `Map.get` returns the value
at the key. An association list with these operations models it exactly,
including the iteration order that `Map.values()` exposes. -/

/-- A JavaScript `Map` with string keys, as an insertion-ordered
association list. -/
abbrev JsMap (α : Type) : Type := List (String × α)

/-- `Map.get`: the value at the first (in a well-formed map: only)
entry with the key. -/
def jsGet {α : Type} : JsMap α → String → Option α
  | [], _ => none
  | p :: t, k => if p.1 = k then some p.2 else jsGet t k

/-- Whether the map holds the key (`Map.has`). -/
def jsHasKey {α : Type} : JsMap α → String → Bool
  | [], _ => false
  | p :: t, k => p.1 = k || jsHasKey t k

/-- Overwrite every entry at the key, keeping its position. -/
def jsReplace {α : Type} : JsMap α → String → α → JsMap α
  | [], _, _ => []
  | p :: t, k, v => if p.1 = k then (k, v) :: jsReplace t k v else p :: jsReplace t k v

/-- `Map.set`: update in place when the key exists, append otherwise. -/
def jsSet {α : Type} (m : JsMap α) (k : String) (v : α) : JsMap α :=
  if jsHasKey m k then jsReplace m k v else m ++ [(k, v)]

/-- `Map.delete`: drop every entry at the key. -/
def jsDelete {α : Type} : JsMap α → String → JsMap α
  | [], _ => []
  | p :: t, k => if p.1 = k then jsDelete t k else p :: jsDelete t k

/-! ## Data model

The domain entities and DTOs of the pipeline
(`Transaction`, `Account`, `Statement`, `VerificationReportDTO`,
`ParsedStatementDTO`). JavaScript numbers are modelled as `ℚ`;
`Record<string, unknown>` metadata bags are modelled as string-to-string
association lists (no claim inspects a metadata value of another type). -/

/-- Issue severity (`'INFO' | 'WARNING' | 'ERROR'`). -/
inductive Severity
  | INFO
  | WARNING
  | ERROR
deriving DecidableEq

/-- Verification status (`'PENDING' | 'PASS' | 'FAIL' | 'REVIEW'`). -/
inductive VerStatus
  | PENDING
  | PASS
  | FAIL
  | REVIEW
deriving DecidableEq

/-- Statement source tag (`'PDF' | 'AGGREGATOR'`). -/
inductive StatementSource
  | PDF
  | AGGREGATOR
deriving DecidableEq

/-- Transaction type (`'CREDIT' | 'DEBIT'`). -/
inductive TxnType
  | CREDIT
  | DEBIT
deriving DecidableEq

/-- Account type enum of `domain/entities/Account.ts`. -/
inductive AccountType
  | CHECKING
  | SAVINGS
  | CREDIT
  | BROKERAGE
  | RETIREMENT
  | LOAN
  | OTHER
deriving DecidableEq

/-- `VerificationIssueDTO`. -/
structure VerificationIssue where
  code : String
  message : String
  field : Option String
  severity : Severity
  remediation : Option String
deriving DecidableEq

/-- `VerificationReportDTO`. -/
structure VerificationReport where
  statementId : String
  status : VerStatus
  confidence : ℚ
  issues : List VerificationIssue
  source : String
  executedAt : String
  metadata : List (String × String)
deriving DecidableEq

/-- `ParsedTransactionDTO`. -/
structure ParsedTransaction where
  externalId : Option String
  accountId : String
  postedDate : String
  description : String
  amount : ℚ
  currency : String
  type : Option TxnType
  balanceAfter : Option ℚ
  metadata : List (String × String)
deriving DecidableEq

/-- The account header object inside `ParsedStatementDTO`. -/
structure ParsedAccount where
  externalId : Option String
  accountId : String
  institutionId : String
  name : String
  mask : Option String
  type : String
  currency : String
deriving DecidableEq

/-- The statement period object; the source field named `end` is a Lean
keyword and is embedded as `endDate`. -/
structure StatementPeriod where
  start : String
  endDate : String
deriving DecidableEq

/-- `ParsedStatementDTO`. -/
structure ParsedStatement where
  account : ParsedAccount
  period : StatementPeriod
  openingBalance : ℚ
  closingBalance : ℚ
  transactions : List ParsedTransaction
  currency : String
  source : StatementSource
  rawStatementUri : Option String
  metadata : List (String × String)
deriving DecidableEq

/-- `domain/entities/Account.ts`. -/
structure Account where
  id : String
  institutionId : String
  mask : Option String
  name : String
  type : AccountType
  currency : String
  balance : ℚ
  asOf : String
  metadata : List (String × String)
deriving DecidableEq

/-- The metadata object assembled for each ingested transaction
(`...txn.metadata, balanceAfter, originalCurrency, convertedCurrency,
conversionRate`), with the typed fields split out of the bag. -/
structure TransactionMeta where
  base : List (String × String)
  balanceAfter : Option ℚ
  originalCurrency : String
  convertedCurrency : Option String
  conversionRate : Option ℚ
deriving DecidableEq

/-- `domain/entities/Transaction.ts`. -/
structure Transaction where
  id : String
  accountId : String
  postedDate : String
  description : String
  originalDescription : Option String
  amount : ℚ
  currency : String
  type : TxnType
  category : Option String
  subCategory : Option String
  normalizedDescription : Option String
  dedupeHash : String
  metadata : TransactionMeta
deriving DecidableEq

/-- `domain/entities/Statement.ts`. -/
structure Statement where
  id : String
  account : Account
  statementPeriodStart : String
  statementPeriodEnd : String
  openingBalance : ℚ
  closingBalance : ℚ
  currency : String
  transactions : List Transaction
  rawStatementUri : Option String
  source : StatementSource
  ingestedAt : String
  verificationStatus : VerStatus
  metadata : List (String × String)
deriving DecidableEq

/-! ## Description normalizer (`domain/services/DescriptionNormalizer.ts`)

`normalizeDescription` is
`input.normalize('NFKD').replace(/[^\w\s]/g, ' ').replace(/\s+/g, ' ').trim().toLowerCase()`. -/

/-- Modelled library primitive: `String.prototype.normalize('NFKD')`, Unicode
compatibility decomposition. NFKD is the identity on ASCII strings; the model
uses the identity embedding, and every theorem about the normalizer is either
insensitive to this stand-in or evaluated on ASCII input, where it agrees with
the real decomposition. -/
def nfkdModel (s : String) : String :=
  s

/-- The first `replace`: every character matching `[^\w\s]` becomes a space. -/
def replacePunct (l : List Char) : List Char :=
  l.map (fun c => if !isWordChar c && !isJsWs c then ' ' else c)

/-- The second `replace` (`/\s+/g` to a single space), scanned with a flag
recording whether the previous character was whitespace: the first character
of a whitespace run becomes one space, the rest are dropped. -/
def collapseWsAux : Bool → List Char → List Char
  | _, [] => []
  | prevWs, c :: cs =>
    if isJsWs c then
      if prevWs then collapseWsAux true cs else ' ' :: collapseWsAux true cs
    else
      c :: collapseWsAux false cs

/-- Collapse every whitespace run to a single space. -/
def collapseWs (l : List Char) : List Char :=
  collapseWsAux false l

/-- `normalizeDescription`: NFKD-decompose, replace `[^\w\s]` by spaces,
collapse whitespace runs, trim, lowercase. -/
def normalizeDescription (s : String) : String :=
  ⟨(trimChars (collapseWs (replacePunct (nfkdModel s).data))).map Char.toLower⟩

/-! ## Transaction hasher (`domain/services/TransactionHasher.ts`) -/

/-- `TransactionHashInput`. -/
structure TransactionHashInput where
  accountId : String
  postedDate : String
  amount : ℚ
  currency : String
  normalizedDescription : String
deriving DecidableEq

/-- Modelled library primitive: `Number.prototype.toFixed(2)`. Rounding is to
the nearest hundredth, ties away from zero; the claims depend only on this
being a pure function of the numeric value. -/
def toFixed2 (q : ℚ) : String :=
  let cents : Int := if 0 ≤ q then ⌊q * 100 + 1 / 2⌋ else -⌊-q * 100 + 1 / 2⌋
  let sign := if cents < 0 then "-" else ""
  let n := cents.natAbs
  let frac := n % 100
  sign ++ toString (n / 100) ++ "." ++
    (if frac < 10 then "0" ++ toString frac else toString frac)

/-- The pipe-joined serialization inside `buildTransactionHash`:
`[accountId, postedDate, amount.toFixed(2), currency.toUpperCase(),
normalizedDescription.trim().toLowerCase()].join('|')`. -/
def serializeHashInput (input : TransactionHashInput) : String :=
  String.intercalate "|"
    [input.accountId, input.postedDate, toFixed2 input.amount,
      upperStr input.currency, lowerStr (trimStr input.normalizedDescription)]

/-- Modelled library primitive: the `node:crypto` SHA-256 hex digest. The
digest is a fixed pure function of its input string; the development models it
by the injective identity embedding (the spec assumes distinct serializations
do not collide), and no theorem below depends on the digest value itself. -/
def sha256HexModel (s : String) : String :=
  s

/-- `buildTransactionHash`: the digest of the pipe-joined, case- and
format-normalized field list. -/
def buildTransactionHash (input : TransactionHashInput) : String :=
  sha256HexModel (serializeHashInput input)

/-! ## Storage adapter (`InMemoryStorageAdapter.ts`)

Four insertion-ordered maps; the advice map of the adapter is omitted — no
operation any claim touches reads or writes it. -/

/-- The adapter state: `accounts`, `statements`, `transactions` (keyed by
dedupe hash), `verifications` (keyed by statement id). -/
structure Storage where
  accounts : JsMap Account
  statements : JsMap Statement
  transactions : JsMap Transaction
  verifications : JsMap VerificationReport
deriving DecidableEq

/-- The freshly constructed adapter: four empty maps. -/
def emptyStorage : Storage :=
  ⟨[], [], [], []⟩

/-- `upsertAccount`: `accounts.set(account.id, account)`. -/
def upsertAccount (st : Storage) (a : Account) : Storage :=
  { st with accounts := jsSet st.accounts a.id a }

/-- `bulkUpsertTransactions`: `transactions.set(txn.dedupeHash, txn)` for each
transaction in order. -/
def bulkUpsertTransactions (st : Storage) (txns : List Transaction) : Storage :=
  { st with transactions := txns.foldl (fun m t => jsSet m t.dedupeHash t) st.transactions }

/-- `saveStatement`: `statements.set(statement.id, statement)`. -/
def saveStatement (st : Storage) (s : Statement) : Storage :=
  { st with statements := jsSet st.statements s.id s }

/-- `saveVerificationReport`: `verifications.set(report.statementId, report)`. -/
def saveVerificationReport (st : Storage) (r : VerificationReport) : Storage :=
  { st with verifications := jsSet st.verifications r.statementId r }

/-- `deleteStatement`: look the statement up (unknown id: no change), delete
it, collect and delete the hashes of every stored transaction on the
statement's account, delete the account when no remaining statement references
it, and delete the statement's verification report. -/
def deleteStatement (st : Storage) (statementId : String) : Storage :=
  match jsGet st.statements statementId with
  | none => st
  | some stmt =>
    let statements1 := jsDelete st.statements statementId
    let accountId := stmt.account.id
    let keysToDelete :=
      (st.transactions.filter (fun p => decide (p.2.accountId = accountId))).map Prod.fst
    let transactions1 := keysToDelete.foldl jsDelete st.transactions
    let otherStatementsForAccount :=
      statements1.any (fun p => decide (p.2.account.id = accountId))
    let accounts1 :=
      if otherStatementsForAccount then st.accounts else jsDelete st.accounts accountId
    let verifications1 := jsDelete st.verifications statementId
    { accounts := accounts1, statements := statements1,
      transactions := transactions1, verifications := verifications1 }

/-! ## Fallback verifier (`BoundaryMLIngestionVerifier.ts`) -/

/-- Modelled library primitive: JavaScript template-literal rendering of a
number (`${txn.amount}`). Integral values print exactly as in JavaScript
(no decimal point, a leading minus for negatives); non-integral rationals use
a fixed injective fallback rendering. The claims depend only on this being a
pure function of the numeric value. -/
def amountRepr (q : ℚ) : String :=
  if q.den = 1 then toString q.num else toString q.num ++ "/" ++ toString q.den

/-- Lexicographic order on character lists, by code point. -/
def charsLe : List Char → List Char → Bool
  | [], _ => true
  | _ :: _, [] => false
  | a :: as, b :: bs =>
    if a.toNat < b.toNat then true
    else if b.toNat < a.toNat then false
    else charsLe as bs

/-- Modelled library primitive: `new Date(a) <= new Date(b)` on ISO date
strings, where chronological order coincides with lexicographic order. -/
def jsDateLe (a b : String) : Bool :=
  charsLe a.data b.data

/-- The duplicate-detection signature:
`accountId-postedDate-amount-currency-description`, dash-joined. -/
def txnSignature (t : ParsedTransaction) : String :=
  t.accountId ++ "-" ++ t.postedDate ++ "-" ++ amountRepr t.amount ++ "-" ++
    t.currency ++ "-" ++ t.description

/-- The `period_invalid` issue object. -/
def periodInvalidIssue : VerificationIssue :=
  { code := "period_invalid",
    message := "Statement period start date is after the end date.",
    field := some "period", severity := Severity.ERROR, remediation := none }

/-- The `balance_mismatch` issue object. -/
def balanceMismatchIssue : VerificationIssue :=
  { code := "balance_mismatch",
    message := "Transaction totals do not reconcile with balance delta.",
    field := some "closingBalance", severity := Severity.ERROR,
    remediation :=
      some "Verify transactions list contains all entries and amounts are signed correctly." }

/-- The `duplicate_transaction` issue object. -/
def duplicateTransactionIssue : VerificationIssue :=
  { code := "duplicate_transaction",
    message := "Duplicate transaction detected with identical details.",
    field := some "transactions", severity := Severity.WARNING,
    remediation := some "Confirm whether the statement includes repeated rows." }

/-- The duplicate-detection scan: one issue per transaction whose signature
was already seen (the `duplicateHashes` set of the source). -/
def dupIssuesAux : List String → List ParsedTransaction → List VerificationIssue
  | _, [] => []
  | seen, t :: ts =>
    let sig := txnSignature t
    if sig ∈ seen then duplicateTransactionIssue :: dupIssuesAux seen ts
    else dupIssuesAux (sig :: seen) ts

/-- `reduce((sum, txn) => sum + txn.amount, 0)`. -/
def totalActivity (stmt : ParsedStatement) : ℚ :=
  stmt.transactions.foldl (fun sum t => sum + t.amount) 0

/-- `runFallbackChecks`: period validity, balance reconciliation against a
tolerance of 1, duplicate-signature detection; then status and confidence
derivation. -/
def runFallbackChecks (stmt : ParsedStatement) (statementId now : String) :
    VerificationReport :=
  let periodIssues :=
    if jsDateLe stmt.period.start stmt.period.endDate then [] else [periodInvalidIssue]
  let balanceDelta := stmt.closingBalance - stmt.openingBalance
  let deltaTolerance := |totalActivity stmt - balanceDelta|
  let balanceIssues := if deltaTolerance > 1 then [balanceMismatchIssue] else []
  let issues := periodIssues ++ balanceIssues ++ dupIssuesAux [] stmt.transactions
  let status : VerStatus :=
    if issues.any (fun i => decide (i.severity = Severity.ERROR)) then VerStatus.FAIL
    else if issues.isEmpty then VerStatus.PASS
    else VerStatus.REVIEW
  { statementId := statementId, status := status,
    confidence :=
      if status = VerStatus.PASS then 9 / 10
      else if status = VerStatus.REVIEW then 6 / 10
      else 1 / 10,
    issues := issues, source := "boundaryml-fallback", executedAt := now,
    metadata := [("fallback", "true")] }

/-- `BoundaryMLConfig`; the optional `enableFallbackChecks` flag is a `Bool`
(an absent flag is falsy, i.e. `false`). -/
structure BmlConfig where
  apiKey : String
  environment : String
  baseUrl : Option String
  timeoutMs : Option ℚ
  enableFallbackChecks : Bool
deriving DecidableEq

/-- The `PENDING` report returned when neither the external service nor the
fallback checks produce a verdict. -/
def pendingReport (statementId now : String) : VerificationReport :=
  { statementId := statementId, status := VerStatus.PENDING, confidence := 0,
    issues := [], source := "boundaryml-fallback", executedAt := now,
    metadata := [("reason", "boundaryml_unavailable")] }

/-- `BoundaryMLIngestionVerifier.validate`. `transportReport` models the
external call: `none` is a verifier constructed without a transport,
`some none` a transport whose call errored or returned no usable report
(`invokeBoundary` yields `null`), `some (some r)` a delivered report. -/
def bmlValidate (cfg : BmlConfig) (transportReport : Option (Option VerificationReport))
    (stmt : ParsedStatement) (statementId now : String) : VerificationReport :=
  match transportReport with
  | some (some report) => report
  | _ =>
    if cfg.enableFallbackChecks then runFallbackChecks stmt statementId now
    else pendingReport statementId now

/-! ## Validation service (`IngestionValidationService.ts`) -/

/-- The thrown `Error` of the validation service, carrying the statement id
and the `ERROR`-severity issue codes that make up its message. -/
structure IngestError where
  statementId : String
  codes : List String
deriving DecidableEq

/-- `report.issues.filter(i => i.severity === 'ERROR')`. -/
def errorIssues (report : VerificationReport) : List VerificationIssue :=
  report.issues.filter (fun i => decide (i.severity = Severity.ERROR))

/-- `IngestionValidationService.validate`: persist the report first, then
throw exactly when the status is `FAIL` and an `ERROR`-severity issue exists.
The mutated storage is returned alongside the outcome. -/
def ivsValidate (st : Storage) (report : VerificationReport) (statementId : String) :
    Storage × Except IngestError VerificationReport :=
  let st1 := saveVerificationReport st report
  if report.status = VerStatus.FAIL ∧ errorIssues report ≠ [] then
    (st1, Except.error ⟨statementId, (errorIssues report).map (fun i => i.code)⟩)
  else
    (st1, Except.ok report)

/-! ## FX converter (`CachedFxConverter.ts`) -/

/-- A rate-cache entry. -/
structure RateCacheEntry where
  rate : ℚ
  asOf : String
deriving DecidableEq

/-- The converter's rate cache. -/
abbrev FxCache := JsMap RateCacheEntry

/-- The cache key: `${from}_{to}` upper-cased — an ordered pair. -/
def fxPairKey (fromCurrency toCurrency : String) : String :=
  upperStr (fromCurrency ++ "_" ++ toCurrency)

/-- `CachedFxConverter.convert`: identity when the currencies are equal;
otherwise look the ordered pair key up, inserting a placeholder rate of 1 on
a miss. Returns the possibly-mutated cache, the converted amount and the rate
used. -/
def fxConvert (cache : FxCache) (amount : ℚ) (fromCurrency toCurrency asOf : String) :
    FxCache × ℚ × ℚ :=
  if fromCurrency = toCurrency then (cache, amount, 1)
  else
    let pair := fxPairKey fromCurrency toCurrency
    match jsGet cache pair with
    | some entry => (cache, amount * entry.rate, entry.rate)
    | none =>
      let entry : RateCacheEntry := ⟨1, asOf⟩
      (jsSet cache pair entry, amount * entry.rate, entry.rate)

/-- `CachedFxConverter.setRate`. -/
def fxSetRate (cache : FxCache) (fromCurrency toCurrency : String) (rate : ℚ)
    (asOf : String) : FxCache :=
  jsSet cache (fxPairKey fromCurrency toCurrency) ⟨rate, asOf⟩

/-! ## Categorizer interface (`CategorizerPort`) -/

/-- One element of the categorizer input batch. -/
structure CatInput where
  dedupeHash : String
  description : String
  amount : ℚ
  currency : String
deriving DecidableEq

/-- `CategorizedTransactionDTO`. -/
structure CatAssignment where
  dedupeHash : String
  category : String
  subCategory : Option String
  confidence : ℚ
deriving DecidableEq

/-! ## Ingestion service (`IngestionService.ts`)

The parser is abstracted: `ingestStatement` receives the already-parsed
statement. The verifier is abstracted as the report it returned for the call;
the categorizer as a function from the input batch to the hash-keyed record.
`new Date().toISOString()` is the explicit `now` argument. -/

/-- `resolveAccountType`: the fixed uppercase lookup table, `OTHER` as the
default. -/
def resolveAccountType (type : String) : AccountType :=
  let normalized := upperStr type
  if normalized = "CHECKING" then AccountType.CHECKING
  else if normalized = "DEPOSITORY" then AccountType.CHECKING
  else if normalized = "SAVINGS" then AccountType.SAVINGS
  else if normalized = "CREDIT" then AccountType.CREDIT
  else if normalized = "BROKERAGE" then AccountType.BROKERAGE
  else if normalized = "INVESTMENT" then AccountType.BROKERAGE
  else if normalized = "IRA" then AccountType.RETIREMENT
  else if normalized = "LOAN" then AccountType.LOAN
  else AccountType.OTHER

/-- `resolveTransactionType`: the provided type, else the amount's sign. -/
def resolveTransactionType (amount : ℚ) (provided : Option TxnType) : TxnType :=
  match provided with
  | some t => t
  | none => if 0 ≤ amount then TxnType.CREDIT else TxnType.DEBIT

/-- `mapAccount`: the canonical account of an ingested statement — balance is
the closing balance, as-of is the period end. -/
def mapAccount (parsed : ParsedStatement) : Account :=
  { id := parsed.account.accountId,
    institutionId := parsed.account.institutionId,
    mask := parsed.account.mask,
    name := parsed.account.name,
    type := resolveAccountType parsed.account.type,
    currency := parsed.account.currency,
    balance := parsed.closingBalance,
    asOf := parsed.period.endDate,
    metadata := parsed.metadata }

/-- The hash input assembled for a parsed transaction of an account. -/
def hashInputFor (accountId : String) (t : ParsedTransaction) : TransactionHashInput :=
  { accountId := accountId, postedDate := t.postedDate, amount := t.amount,
    currency := t.currency,
    normalizedDescription := normalizeDescription t.description }

/-- The categorization input batch built in `mapTransactions`. -/
def categorizationInput (parsed : ParsedStatement) (account : Account) : List CatInput :=
  parsed.transactions.map (fun t =>
    { dedupeHash := buildTransactionHash (hashInputFor account.id t),
      description := t.description, amount := t.amount, currency := t.currency })

/-- The per-transaction body of the `mapTransactions` loop: normalize, hash,
look the category up, convert the currency when a differing base currency is
requested, and assemble the final `Transaction` record. Returns the
possibly-mutated rate cache alongside the record. -/
def assembleTransaction (account : Account) (baseCurrency : Option String)
    (categorization : JsMap CatAssignment) (fx : FxCache) (t : ParsedTransaction) :
    FxCache × Transaction :=
  let normalizedDescription := normalizeDescription t.description
  let dedupeHash := buildTransactionHash (hashInputFor account.id t)
  let category := jsGet categorization dedupeHash
  let conv : FxCache × ℚ × Option ℚ :=
    match baseCurrency with
    | some base =>
      if t.currency ≠ base then
        let r := fxConvert fx t.amount t.currency base t.postedDate
        (r.1, r.2.1, some r.2.2)
      else (fx, t.amount, none)
    | none => (fx, t.amount, none)
  let convertedCurrency : Option String :=
    match baseCurrency with
    | some base => if t.currency ≠ base then some base else none
    | none => none
  (conv.1,
    { id := t.externalId.getD dedupeHash,
      accountId := account.id,
      postedDate := t.postedDate,
      description := t.description,
      originalDescription := jsGet t.metadata "originalDescription",
      amount := conv.2.1,
      currency := convertedCurrency.getD t.currency,
      type := resolveTransactionType t.amount t.type,
      category := category.map (fun c => c.category),
      subCategory := category.bind (fun c => c.subCategory),
      normalizedDescription := some normalizedDescription,
      dedupeHash := dedupeHash,
      metadata :=
        { base := t.metadata, balanceAfter := t.balanceAfter,
          originalCurrency := t.currency,
          convertedCurrency := convertedCurrency,
          conversionRate := conv.2.2 } })

/-- `mapTransactions`: one batch categorizer call, then the assembly loop in
document order, threading the rate cache. -/
def mapTransactions (categorizer : List CatInput → JsMap CatAssignment)
    (parsed : ParsedStatement) (account : Account) (baseCurrency : Option String)
    (fx : FxCache) : FxCache × List Transaction :=
  let categorization := categorizer (categorizationInput parsed account)
  parsed.transactions.foldl
    (fun acc t =>
      let r := assembleTransaction account baseCurrency categorization acc.1 t
      (r.1, acc.2 ++ [r.2]))
    (fx, [])

/-- `IngestionService.ingestStatement`, from the parsed statement on:
validate (persisting the report, possibly throwing), then build the account,
transactions and statement and persist all three. -/
def ingestStatement (categorizer : List CatInput → JsMap CatAssignment)
    (parsed : ParsedStatement) (statementId : String) (baseCurrency : Option String)
    (report : VerificationReport) (now : String) (st : Storage) (fx : FxCache) :
    (Storage × FxCache) × Except IngestError (Statement × VerStatus) :=
  let v := ivsValidate st report statementId
  match v.2 with
  | Except.error e => ((v.1, fx), Except.error e)
  | Except.ok report1 =>
    let account := mapAccount parsed
    let m := mapTransactions categorizer parsed account baseCurrency fx
    let statement : Statement :=
      { id := statementId, account := account,
        statementPeriodStart := parsed.period.start,
        statementPeriodEnd := parsed.period.endDate,
        openingBalance := parsed.openingBalance,
        closingBalance := parsed.closingBalance,
        currency := parsed.currency,
        transactions := m.2,
        rawStatementUri := parsed.rawStatementUri,
        source := parsed.source,
        ingestedAt := now,
        verificationStatus := report1.status,
        metadata := parsed.metadata }
    let st2 := upsertAccount v.1 account
    let st3 := bulkUpsertTransactions st2 m.2
    let st4 := saveStatement st3 statement
    ((st4, m.1), Except.ok (statement, report1.status))

/-! ## Rule-based categorizer (`RuleBasedCategorizer.ts`)

Every rule's regex has the shape `\b(alt1|alt2|...)\b` with the `i` flag and
literal alternatives, each alternative beginning and ending in a word
character. Such a regex tests whether some alternative occurs in the
lower-cased description with no word character immediately before or after
the occurrence; the matcher below implements exactly that. -/

/-- Whether the keyword occurs at the head of `l`, with `prev` (the character
before `l`, if any) and the character following the occurrence both non-word —
the two `\b` boundaries. -/
def kwMatchesHere (kw : List Char) (prev : Option Char) (l : List Char) : Bool :=
  kw.isPrefixOf l &&
    (match prev with
      | none => true
      | some c => !isWordChar c) &&
    (match l.drop kw.length with
      | [] => true
      | c :: _ => !isWordChar c)

/-- Scan every position of `l` for a boundary-delimited occurrence of the
keyword, tracking the previous character. -/
def kwMatchFrom (kw : List Char) : Option Char → List Char → Bool
  | prev, [] => kwMatchesHere kw prev []
  | prev, c :: cs => kwMatchesHere kw prev (c :: cs) || kwMatchFrom kw (some c) cs

/-- `\b(kw)\b` with the `i` flag against a description: match on the
lower-cased text (rule keywords are written lower-case in the source). -/
def containsWordKw (desc : String) (kw : String) : Bool :=
  kwMatchFrom kw.data none (lowerStr desc).data

/-- One categorization rule: the regex alternatives, category, subcategory. -/
structure CatRule where
  keywords : List String
  category : String
  subCategory : String
deriving DecidableEq

/-- `rule.test(description)`: some alternative matches. -/
def ruleTest (r : CatRule) (desc : String) : Bool :=
  r.keywords.any (fun kw => containsWordKw desc kw)

/-- The ordered rule table of `RuleBasedCategorizer.ts`. -/
def catRules : List CatRule :=
  [ ⟨["payroll", "salary", "paycheck", "wage", "direct deposit"], "Income", "Salary"⟩,
    ⟨["transfer from", "received", "payment received", "refund"], "Income", "Transfer"⟩,
    ⟨["interest", "dividend"], "Income", "Investment Income"⟩,
    ⟨["restaurant", "restaurante", "dining", "diner", "bistro", "pizzeria", "sushi",
      "taqueria", "burger"], "Food & Dining", "Restaurants"⟩,
    ⟨["coffee", "cafe", "cafeteria", "starbucks", "dunkin", "espresso", "cappuccino"],
      "Food & Dining", "Coffee Shops"⟩,
    ⟨["bar", "pub", "brewery", "taproom", "cantina"], "Food & Dining", "Bars & Alcohol"⟩,
    ⟨["rappi", "uber eats", "ubereats", "doordash", "grubhub", "deliveroo", "postmates",
      "delivery"], "Food & Dining", "Food Delivery"⟩,
    ⟨["grocery", "groceries", "supermarket", "supermercado", "market", "whole foods",
      "trader joe", "safeway", "kroger", "walmart", "target", "costco"],
      "Food & Dining", "Groceries"⟩,
    ⟨["uber", "lyft", "taxi", "cab", "rideshare", "beat", "didi", "cabify"],
      "Transportation", "Ride Share"⟩,
    ⟨["metro", "subway", "transit", "bus", "train", "railway", "mrt"],
      "Transportation", "Public Transit"⟩,
    ⟨["gas", "fuel", "petrol", "gasoline", "shell", "chevron", "exxon", "bp"],
      "Transportation", "Gas & Fuel"⟩,
    ⟨["parking", "park"], "Transportation", "Parking"⟩,
    ⟨["flight", "airline", "airways", "aviation"], "Travel", "Flights"⟩,
    ⟨["amazon", "ebay", "etsy", "mercado libre"], "Shopping", "Online Shopping"⟩,
    ⟨["tienda", "store", "shop", "boutique", "retail"], "Shopping", "General Merchandise"⟩,
    ⟨["clothing", "apparel", "fashion", "zara", "h&m", "uniqlo", "nike", "adidas"],
      "Shopping", "Clothing"⟩,
    ⟨["electronics", "apple", "best buy", "microsoft"], "Shopping", "Electronics"⟩,
    ⟨["shave", "barber", "salon", "haircut", "spa", "beauty", "cosmetic", "nail"],
      "Personal Care", "Hair & Beauty"⟩,
    ⟨["gym", "fitness", "yoga", "pilates", "workout", "peloton"], "Personal Care", "Fitness"⟩,
    ⟨["pharmacy", "drug", "cvs", "walgreens", "medicine", "prescription"],
      "Healthcare", "Pharmacy"⟩,
    ⟨["doctor", "dentist", "clinic", "hospital", "medical", "health"],
      "Healthcare", "Medical"⟩,
    ⟨["rent", "lease", "landlord"], "Housing", "Rent"⟩,
    ⟨["mortgage", "home loan"], "Housing", "Mortgage"⟩,
    ⟨["electric", "electricity", "power", "utility"], "Bills & Utilities", "Electricity"⟩,
    ⟨["water", "sewer"], "Bills & Utilities", "Water"⟩,
    ⟨["internet", "wifi", "broadband", "comcast", "spectrum", "at&t"],
      "Bills & Utilities", "Internet"⟩,
    ⟨["phone", "mobile", "cell", "verizon", "t-mobile", "sprint"],
      "Bills & Utilities", "Phone"⟩,
    ⟨["netflix", "hulu", "disney", "spotify", "apple music", "youtube premium", "hbo",
      "prime video"], "Entertainment", "Streaming Services"⟩,
    ⟨["movie", "cinema", "theater", "theatre"], "Entertainment", "Movies"⟩,
    ⟨["concert", "festival", "event", "ticket"], "Entertainment", "Events"⟩,
    ⟨["subscription", "membership"], "Entertainment", "Subscriptions"⟩,
    ⟨["hotel", "motel", "inn", "resort", "airbnb", "booking", "expedia"],
      "Travel", "Lodging"⟩,
    ⟨["vacation", "trip", "travel", "tourism"], "Travel", "General Travel"⟩,
    ⟨["investment", "brokerage", "etf", "stock", "mutual fund"], "Investments", "Brokerage"⟩,
    ⟨["atm", "withdrawal", "cash"], "Cash & ATM", "ATM Withdrawal"⟩,
    ⟨["fee", "charge", "service charge"], "Fees & Charges", "Bank Fees"⟩,
    ⟨["insurance", "policy"], "Insurance", "Insurance Premium"⟩,
    ⟨["tuition", "school", "university", "college", "education", "course"],
      "Education", "Tuition & Fees"⟩,
    ⟨["book", "textbook", "learning"], "Education", "Books & Supplies"⟩ ]

/-- `rules.find(candidate => candidate.test(txn.description))`. -/
def firstMatchingRule (desc : String) : Option CatRule :=
  catRules.find? (fun r => ruleTest r desc)

/-- The per-transaction assignment: first matching rule at confidence 0.75,
else the sign/magnitude default (positive → Income / Other Income at 0.4;
magnitude above 500 → Bills & Utilities / Other Bills at 0.35; otherwise
Shopping / General Merchandise at 0.35). -/
def categorizeOne (dedupeHash desc : String) (amount : ℚ) : CatAssignment :=
  match firstMatchingRule desc with
  | some rule =>
    { dedupeHash := dedupeHash, category := rule.category,
      subCategory := some rule.subCategory, confidence := 3 / 4 }
  | none =>
    if amount > 0 then
      { dedupeHash := dedupeHash, category := "Income",
        subCategory := some "Other Income", confidence := 2 / 5 }
    else if |amount| > 500 then
      { dedupeHash := dedupeHash, category := "Bills & Utilities",
        subCategory := some "Other Bills", confidence := 7 / 20 }
    else
      { dedupeHash := dedupeHash, category := "Shopping",
        subCategory := some "General Merchandise", confidence := 7 / 20 }

/-- `RuleBasedCategorizer.categorize`: the hash-keyed record of per-item
assignments, built in batch order (the account context is ignored by the
source). -/
def ruleBasedCategorize (txns : List CatInput) : JsMap CatAssignment :=
  txns.foldl
    (fun acc t => jsSet acc t.dedupeHash (categorizeOne t.dedupeHash t.description t.amount))
    []

/-! ## PDF parser: amount parsing and balance inference
(`PdfStatementParser.extractBalances` and `parseAmount` — identical in both
copies of the parser in the repository). -/

/-- The numeric value of a digit list, most significant first. -/
def digitsToNat (l : List Char) : Nat :=
  l.foldl (fun acc c => acc * 10 + (c.toNat - '0'.toNat)) 0

/-- Modelled library primitive: `parseFloat` on the strings this pipeline
feeds it — an optional sign, then the longest `digits [. digits]` prefix; no
prefix with a digit means `NaN`, modelled as `none`. (Exponents, `Infinity`
and leading whitespace never occur here: the inputs are regex captures with
`$`, `,` and whitespace already removed.) -/
def parseFloatUnsigned (l : List Char) : Option ℚ :=
  let intPart := l.takeWhile Char.isDigit
  let rest := l.drop intPart.length
  match rest with
  | '.' :: rest1 =>
    let fracPart := rest1.takeWhile Char.isDigit
    if intPart.isEmpty && fracPart.isEmpty then none
    else some ((digitsToNat intPart : ℚ) + (digitsToNat fracPart : ℚ) / 10 ^ fracPart.length)
  | _ => if intPart.isEmpty then none else some (digitsToNat intPart : ℚ)

/-- `parseFloat` with the optional leading sign. -/
def parseFloatQ (l : List Char) : Option ℚ :=
  match l with
  | '-' :: rest => (parseFloatUnsigned rest).map (fun q => -q)
  | '+' :: rest => parseFloatUnsigned rest
  | _ => parseFloatUnsigned l

/-- `parseAmount`: strip `[$,\s]`, parse, and negate the absolute value when
the original string contains a parenthesis or starts with a minus. `none` is
JavaScript `NaN`. -/
def parseAmount (s : String) : Option ℚ :=
  let cleaned := s.data.filter (fun c => !(c = '$' || c = ',' || isJsWs c))
  (parseFloatQ cleaned).map (fun value =>
    if s.data.contains '(' || decide (s.data.head? = some '-') then -|value| else value)

/-- Characters of the regex class `[\d,]`. -/
def isDigitOrComma (c : Char) : Bool :=
  c.isDigit || c = ','

/-- Characters of the regex class `[:\s]`. -/
def isColonOrWs (c : Char) : Bool :=
  c = ':' || isJsWs c

/-- Try the balance pattern
`(label)\s+balance[:\s]+\$?\s*([\d,]+\.?\d*)` at the head of `l` (already
lower-cased), returning the capture group. Greedy matching of each piece
agrees with the regex here because consecutive character classes are
disjoint. -/
def matchBalanceAt (labels : List String) (l : List Char) : Option (List Char) :=
  labels.findSome? (fun w =>
    if w.data.isPrefixOf l then
      let l1 := l.drop w.length
      let ws1 := l1.takeWhile isJsWs
      if ws1.isEmpty then none
      else
        let l2 := l1.drop ws1.length
        if ("balance").data.isPrefixOf l2 then
          let l3 := l2.drop 7
          let cws := l3.takeWhile isColonOrWs
          if cws.isEmpty then none
          else
            let l4 := l3.drop cws.length
            let l5 :=
              match l4 with
              | '$' :: r => r.dropWhile isJsWs
              | _ => l4
            let dc := l5.takeWhile isDigitOrComma
            if dc.isEmpty then none
            else
              match l5.drop dc.length with
              | '.' :: r => some (dc ++ '.' :: r.takeWhile Char.isDigit)
              | _ => some dc
        else none
    else none)

/-- Left-to-right scan of a line for the first balance-pattern match — the
`String.prototype.match` semantics of finding the leftmost match. -/
def scanBalance (labels : List String) : List Char → Option (List Char)
  | [] => none
  | c :: cs =>
    match matchBalanceAt labels (c :: cs) with
    | some cap => some cap
    | none => scanBalance labels cs

/-- Alternatives of the opening-balance pattern. -/
def openingLabels : List String :=
  ["opening", "beginning", "previous"]

/-- Alternatives of the closing-balance pattern. -/
def closingLabels : List String :=
  ["closing", "ending", "current", "new"]

/-- The capture of the opening-balance pattern on a line (`i` flag: matching
happens on the lower-cased line; the capture consists of digits, commas and a
dot, which lower-casing fixes). -/
def openingBalanceCapture (line : String) : Option String :=
  (scanBalance openingLabels (lowerStr line).data).map String.mk

/-- The capture of the closing-balance pattern on a line. -/
def closingBalanceCapture (line : String) : Option String :=
  (scanBalance closingLabels (lowerStr line).data).map String.mk

/-- `extractBalances`: fold over the lines, overwriting the running opening
and closing balance (initially 0) whenever the respective pattern matches.
`none` models JavaScript `NaN`. -/
def extractBalances (lines : List String) : Option ℚ × Option ℚ :=
  lines.foldl
    (fun acc line =>
      let acc1 :=
        match openingBalanceCapture line with
        | some cap => (parseAmount cap, acc.2)
        | none => acc
      match closingBalanceCapture line with
      | some cap => (acc1.1, parseAmount cap)
      | none => acc1)
    (some 0, some 0)

/-! ## Derived notions used by the claim statements -/

/-- The five-field identity tuple of a statement row —
(account, date, amount, currency, raw description). -/
def txnTuple (t : ParsedTransaction) : String × String × ℚ × String × String :=
  (t.accountId, t.postedDate, t.amount, t.currency, t.description)

/-- Split a character list into its maximal runs of non-whitespace
characters. -/
def splitWs : List Char → List (List Char)
  | [] => []
  | c :: cs =>
    if isJsWs c then splitWs cs
    else (c :: cs.takeWhile (fun d => !isJsWs d)) :: splitWs (cs.dropWhile (fun d => !isJsWs d))
termination_by l => l.length
decreasing_by
  · simp only [List.length_cons]; omega
  · simp only [List.length_cons]
    exact Nat.lt_succ_of_le ((List.dropWhile_suffix _).sublist.length_le)

/-- Join words with single spaces. -/
def joinWords : List (List Char) → List Char
  | [] => []
  | [w] => w
  | w :: ws => w ++ ' ' :: joinWords ws

/-- The normalizer as the specification sentence describes it (amended):
replace every character that is neither a word character nor whitespace by a
space, join the maximal non-whitespace runs with single spaces (collapsing
and trimming), and lowercase. Stated independently of the source pipeline to
compare the two. -/
def specNormalizeModel (s : String) : String :=
  let mapped := (nfkdModel s).data.map (fun c => if isWordChar c || isJsWs c then c else ' ')
  ⟨(joinWords (splitWs mapped)).map Char.toLower⟩

/-! ## Concrete interchange data

Small closed records used by the evaluated witnesses below. -/

/-- A parsed account header. -/
def sampleAccount0 : ParsedAccount :=
  ⟨none, "acc-1", "bank", "Checking", none, "CHECKING", "USD"⟩

/-- A parsed transaction row in USD with no optional data. -/
def samplePT (acct date desc : String) (amt : ℚ) : ParsedTransaction :=
  ⟨none, acct, date, desc, amt, "USD", none, none, []⟩

/-- A statement whose rows reconcile exactly (sum 2310 = 3810 − 1500). -/
def sampleStmtPass : ParsedStatement :=
  ⟨sampleAccount0, ⟨"2024-01-01", "2024-01-31"⟩, 1500, 3810,
    [samplePT "acc-1" "2024-01-02" "Payroll ACME Corp" 2500,
      samplePT "acc-1" "2024-01-05" "Grocery Store" (-190)],
    "USD", StatementSource.PDF, none, []⟩

/-- A reconciling statement whose two rows have distinct field tuples but
colliding dash-joined signatures. -/
def sampleStmtCollide : ParsedStatement :=
  ⟨sampleAccount0, ⟨"2024-01-01", "2024-01-31"⟩, 0, 2,
    [samplePT "a" "2024-01-02" "x" 1, samplePT "a-2024" "01-02" "x" 1],
    "USD", StatementSource.PDF, none, []⟩

/-- A reconciling statement with two identical rows. -/
def sampleStmtDup : ParsedStatement :=
  ⟨sampleAccount0, ⟨"2024-01-01", "2024-01-31"⟩, 0, 2,
    [samplePT "acc-1" "2024-01-02" "Coffee" 1, samplePT "acc-1" "2024-01-02" "Coffee" 1],
    "USD", StatementSource.PDF, none, []⟩

/-- A statement whose single row misses the balance delta by 99. -/
def sampleStmtMismatch : ParsedStatement :=
  ⟨sampleAccount0, ⟨"2024-01-01", "2024-01-31"⟩, 0, 100,
    [samplePT "acc-1" "2024-01-02" "zz" 1], "USD", StatementSource.PDF, none, []⟩

/-- A failing verification report with one `ERROR` issue. -/
def sampleFailReport : VerificationReport :=
  ⟨"stmt-9", VerStatus.FAIL, 1 / 10, [balanceMismatchIssue], "boundaryml-fallback",
    "2024-02-01", []⟩

/-- A stored transaction record. -/
def sampleTxn (id acct h : String) (amt : ℚ) : Transaction :=
  ⟨id, acct, "2024-01-02", "d", none, amt, "USD", TxnType.CREDIT, none, none, none, h,
    ⟨[], none, "USD", none, none⟩⟩

/-- A stored account record. -/
def sampleDomAccount (id : String) : Account :=
  ⟨id, "bank", none, "A", AccountType.CHECKING, "USD", 0, "2024-01-31", []⟩

/-- A stored statement record on an account. -/
def sampleDomStatement (sid acct : String) : Statement :=
  ⟨sid, sampleDomAccount acct, "2024-01-01", "2024-01-31", 0, 0, "USD", [], none,
    StatementSource.PDF, "t", VerStatus.PASS, []⟩

/-- A store with two statements on two accounts, one transaction each, and a
report for the first statement — assembled through the adapter operations. -/
def sampleStore : Storage :=
  saveVerificationReport
    (bulkUpsertTransactions
      (saveStatement
        (saveStatement
          (upsertAccount (upsertAccount emptyStorage (sampleDomAccount "A1"))
            (sampleDomAccount "A2"))
          (sampleDomStatement "S1" "A1"))
        (sampleDomStatement "S2" "A2"))
      [sampleTxn "t1" "A1" "h1" 5, sampleTxn "t2" "A2" "h2" 7])
    ⟨"S1", VerStatus.PASS, 9 / 10, [], "src", "t", []⟩

/-- The dash-joined rendering of a five-field tuple; the duplicate-detection
signature factors through the tuple via this function. -/
def sigOfTuple (p : String × String × ℚ × String × String) : String :=
  p.1 ++ "-" ++ p.2.1 ++ "-" ++ amountRepr p.2.2.1 ++ "-" ++ p.2.2.2.1 ++ "-" ++ p.2.2.2.2

/-- Whether a character list ends in whitespace. -/
def lastIsWs (l : List Char) : Bool :=
  (l.getLast?.map isJsWs).getD false

/-! ## Map lemmas

Lookup characterizations of the `JsMap` operations, shared by the claim
theorems below. -/

theorem jsGet_replace_self {α : Type} (m : JsMap α) (k : String) (v : α)
    (h : jsHasKey m k = true) : jsGet (jsReplace m k v) k = some v := by
  induction m with
  | nil => simp [jsHasKey] at h
  | cons p t ih =>
    by_cases hk : p.1 = k
    · simp [jsReplace, hk, jsGet]
    · simp [jsHasKey, hk] at h
      simp [jsReplace, hk, jsGet, ih h]

theorem jsGet_replace_ne {α : Type} (m : JsMap α) (k k' : String) (v : α)
    (h : k' ≠ k) : jsGet (jsReplace m k v) k' = jsGet m k' := by
  induction m with
  | nil => rfl
  | cons p t ih =>
    by_cases hk : p.1 = k
    · have hpk : ¬p.1 = k' := by rw [hk]; exact Ne.symm h
      simp [jsReplace, hk, jsGet, Ne.symm h, hpk, ih]
    · by_cases hk' : p.1 = k'
      · simp [jsReplace, hk, jsGet, hk', h]
      · simp [jsReplace, hk, jsGet, hk', ih]

theorem jsGet_append_single_self {α : Type} (m : JsMap α) (k : String) (v : α)
    (h : jsHasKey m k = false) : jsGet (m ++ [(k, v)]) k = some v := by
  induction m with
  | nil => simp [jsGet]
  | cons p t ih =>
    simp [jsHasKey] at h
    simp [jsGet, h.1, ih h.2]

theorem jsGet_append_single_ne {α : Type} (m : JsMap α) (k k' : String) (v : α)
    (h : k' ≠ k) : jsGet (m ++ [(k, v)]) k' = jsGet m k' := by
  induction m with
  | nil => simp [jsGet, Ne.symm h]
  | cons p t ih =>
    by_cases hk' : p.1 = k'
    · simp [jsGet, hk']
    · simp [jsGet, hk', ih]

/-- Lookup after `Map.set` at the written key. -/
theorem jsGet_set_self {α : Type} (m : JsMap α) (k : String) (v : α) :
    jsGet (jsSet m k v) k = some v := by
  unfold jsSet
  by_cases h : jsHasKey m k
  · simp [h, jsGet_replace_self m k v h]
  · simp only [Bool.not_eq_true] at h
    simp [h, jsGet_append_single_self m k v h]

/-- Lookup after `Map.set` away from the written key. -/
theorem jsGet_set_ne {α : Type} (m : JsMap α) (k k' : String) (v : α)
    (h : k' ≠ k) : jsGet (jsSet m k v) k' = jsGet m k' := by
  unfold jsSet
  by_cases hh : jsHasKey m k
  · simp [hh, jsGet_replace_ne m k k' v h]
  · simp only [Bool.not_eq_true] at hh
    simp [hh, jsGet_append_single_ne m k k' v h]

/-- Lookup after `Map.delete` at the deleted key. -/
theorem jsGet_delete_self {α : Type} (m : JsMap α) (k : String) :
    jsGet (jsDelete m k) k = none := by
  induction m with
  | nil => rfl
  | cons p t ih =>
    by_cases hk : p.1 = k
    · simpa [jsDelete, hk] using ih
    · simpa [jsDelete, hk, jsGet] using ih

/-- Lookup after `Map.delete` away from the deleted key. -/
theorem jsGet_delete_ne {α : Type} (m : JsMap α) (k k' : String)
    (h : k' ≠ k) : jsGet (jsDelete m k) k' = jsGet m k' := by
  induction m with
  | nil => rfl
  | cons p t ih =>
    by_cases hk : p.1 = k
    · have hpk : ¬p.1 = k' := by rw [hk]; exact Ne.symm h
      simpa [jsDelete, hk, jsGet, hpk, Ne.symm h] using ih
    · by_cases hk' : p.1 = k'
      · simp [jsDelete, hk, jsGet, hk', h]
      · simpa [jsDelete, hk, jsGet, hk'] using ih

/-- Writing a sequence of keyed values with `Map.set` (the shape of every bulk
upsert in the adapter): lookup afterwards returns the value of the last list
element carrying the key, and falls back to the initial map when the key never
occurs. -/
theorem jsGet_foldl_set {α τ : Type} (key : τ → String) (val : τ → α)
    (l : List τ) (m : JsMap α) (k : String) :
    jsGet (l.foldl (fun acc x => jsSet acc (key x) (val x)) m) k =
      ((l.filter (fun x => decide (key x = k))).getLast?).elim
        (jsGet m k) (fun x => some (val x)) := by
  induction l generalizing m with
  | nil => rfl
  | cons x t ih =>
    simp only [List.foldl_cons]
    rw [ih]
    by_cases hk : key x = k
    · have hfc : (x :: t).filter (fun y => decide (key y = k)) =
          x :: t.filter (fun y => decide (key y = k)) := by
        simp [List.filter_cons, hk]
      rw [hfc]
      cases hft : t.filter (fun y => decide (key y = k)) with
      | nil => simp [hft, jsGet_set_self, hk]
      | cons y ys =>
        rw [List.getLast?_cons_cons]
        cases hz : (y :: ys).getLast? with
        | none => simp at hz
        | some z => simp [hz]
    · have hfc : (x :: t).filter (fun y => decide (key y = k)) =
          t.filter (fun y => decide (key y = k)) := by
        simp [List.filter_cons, hk]
      rw [hfc, jsGet_set_ne _ _ _ _ (Ne.symm hk)]

/-! ## Shared helper lemmas -/

/-- A report has a nonempty `ERROR` filter exactly when some issue has
`ERROR` severity. -/
theorem errorIssues_ne_nil_iff (r : VerificationReport) :
    errorIssues r ≠ [] ↔ ∃ i ∈ r.issues, i.severity = Severity.ERROR := by
  unfold errorIssues
  rw [ne_eq, List.filter_eq_nil_iff]
  push_neg
  simp

/-- Bulk upsert is keyed by the dedupe hash: lookup returns the last upserted
transaction with the hash, the prior store entry when the batch never carries
it. -/
theorem jsGet_bulkUpsert (st : Storage) (l : List Transaction) (h : String) :
    jsGet (bulkUpsertTransactions st l).transactions h =
      ((l.filter (fun x => decide (x.dedupeHash = h))).getLast?).elim
        (jsGet st.transactions h) (fun x => some x) := by
  have hgen := jsGet_foldl_set (fun t : Transaction => t.dedupeHash)
    (fun t : Transaction => t) l st.transactions h
  simpa [bulkUpsertTransactions] using hgen

/-! ## C5 — FX conversion -/

/-- C5 counterexample: the source keys the rate cache by the ordered pair
`FROM_TO`, not the unordered pair of the claim. With a rate of 2 configured
for the pair of currencies EUR and USD (stored under `EUR_USD`), converting
from USD to EUR uses the placeholder rate 1 — not the configured rate — and
mutates the cache, contradicting the claim's unordered-pair contract. -/
theorem fx_unordered_pair_cex :
    jsGet (fxSetRate [] "EUR" "USD" 2 "2024-01-01") (fxPairKey "EUR" "USD") =
      some ⟨2, "2024-01-01"⟩ ∧
    (fxConvert (fxSetRate [] "EUR" "USD" 2 "2024-01-01") 5 "USD" "EUR" "2024-01-02").2.2 = 1 ∧
    (fxConvert (fxSetRate [] "EUR" "USD" 2 "2024-01-01") 5 "USD" "EUR" "2024-01-02").2.1 = 5 ∧
    (fxConvert (fxSetRate [] "EUR" "USD" 2 "2024-01-01") 5 "USD" "EUR" "2024-01-02").1 ≠
      fxSetRate [] "EUR" "USD" 2 "2024-01-01" := by
  refine ⟨by decide, by decide, ?_, by decide⟩
  calc (fxConvert (fxSetRate [] "EUR" "USD" 2 "2024-01-01") 5 "USD" "EUR" "2024-01-02").2.1
      = 5 * 1 := rfl
    _ = 5 := mul_one 5

/-- C5 (amended): `convert` with equal currencies returns the amount with
rate 1 and an untouched cache; otherwise the cache is keyed by the ordered
upper-cased pair `FROM_TO` — a hit returns the cached rate and leaves the
cache unchanged, a miss inserts a placeholder rate of 1, records it, and a
repeated call for the same unconfigured pair returns the same result from the
now-populated cache. -/
theorem fx_convert_behavior (cache : FxCache) (amount amount2 : ℚ)
    (fromC toC asOf asOf2 : String) :
    (fromC = toC → fxConvert cache amount fromC toC asOf = (cache, amount, 1)) ∧
    (fromC ≠ toC → ∀ e, jsGet cache (fxPairKey fromC toC) = some e →
      fxConvert cache amount fromC toC asOf = (cache, amount * e.rate, e.rate)) ∧
    (fromC ≠ toC → jsGet cache (fxPairKey fromC toC) = none →
      fxConvert cache amount fromC toC asOf =
        (jsSet cache (fxPairKey fromC toC) ⟨1, asOf⟩, amount * 1, 1) ∧
      fxConvert (fxConvert cache amount fromC toC asOf).1 amount2 fromC toC asOf2 =
        ((fxConvert cache amount fromC toC asOf).1, amount2 * 1, 1)) := by
  refine ⟨fun he => by simp [fxConvert, he], fun hne e he => by simp [fxConvert, hne, he],
    fun hne he => ?_⟩
  have h1 : fxConvert cache amount fromC toC asOf =
      (jsSet cache (fxPairKey fromC toC) ⟨1, asOf⟩, amount * 1, 1) := by
    simp [fxConvert, hne, he]
  refine ⟨h1, ?_⟩
  rw [h1]
  simp [fxConvert, hne, jsGet_set_self]

/-- C5 witness: the amended behavior evaluated at concrete calls — the
identity conversion, and a first miss for an unconfigured pair. -/
theorem fx_convert_behavior_witness :
    fxConvert [] 100 "USD" "USD" "2024-01-01" = ([], 100, 1) ∧
    fxConvert [] 7 "USD" "EUR" "2024-01-01" =
      (jsSet [] (fxPairKey "USD" "EUR") ⟨1, "2024-01-01"⟩, 7 * 1, 1) := by
  constructor
  · exact (fx_convert_behavior [] 100 100 "USD" "USD" "2024-01-01" "2024-01-01").1 rfl
  · exact ((fx_convert_behavior [] 7 7 "USD" "EUR" "2024-01-01" "2024-01-01").2.2
      (by decide) (by decide)).1

/-! ## C10 — PENDING ingestion -/

/-- C10: with no transport configured, or an external call that yields no
report, and fallback checks disabled, `validate` returns the `PENDING` report
with confidence 0 and no issues (no local check runs — the report is the same
whatever the statement's content), and ingestion persists that report and the
statement without raising: the statement completes ingestion with
`verificationStatus` `PENDING`. -/
theorem pending_report_ingestion (cfg : BmlConfig)
    (tr : Option (Option VerificationReport))
    (cat : List CatInput → JsMap CatAssignment) (parsed : ParsedStatement)
    (sid now : String) (baseCurrency : Option String) (st : Storage) (fx : FxCache)
    (report : VerificationReport)
    (hcfg : cfg.enableFallbackChecks = false)
    (htr : tr = none ∨ tr = some none)
    (hrep : report = bmlValidate cfg tr parsed sid now) :
    report = pendingReport sid now ∧
    report.status = VerStatus.PENDING ∧ report.confidence = 0 ∧ report.issues = [] ∧
    (∃ stmtRes,
      (ingestStatement cat parsed sid baseCurrency report now st fx).2 =
        Except.ok (stmtRes, VerStatus.PENDING) ∧
      stmtRes.verificationStatus = VerStatus.PENDING ∧
      jsGet (ingestStatement cat parsed sid baseCurrency report now st fx).1.1.statements
        sid = some stmtRes ∧
      jsGet (ingestStatement cat parsed sid baseCurrency report now st fx).1.1.verifications
        sid = some report) := by
  have hpend : report = pendingReport sid now := by
    rcases htr with rfl | rfl <;> simp [hrep, bmlValidate, hcfg]
  subst hpend
  refine ⟨rfl, rfl, rfl, rfl, ?_⟩
  have hv : ivsValidate st (pendingReport sid now) sid =
      (saveVerificationReport st (pendingReport sid now),
        Except.ok (pendingReport sid now)) := by
    simp [ivsValidate, pendingReport]
  refine ⟨⟨sid, mapAccount parsed, parsed.period.start, parsed.period.endDate,
      parsed.openingBalance, parsed.closingBalance, parsed.currency,
      (mapTransactions cat parsed (mapAccount parsed) baseCurrency fx).2,
      parsed.rawStatementUri, parsed.source, now, VerStatus.PENDING,
      parsed.metadata⟩, ?_, rfl, ?_, ?_⟩
  · simp [ingestStatement, hv,
      (show (pendingReport sid now).status = VerStatus.PENDING from rfl)]
  · simp [ingestStatement, hv, saveStatement, upsertAccount, bulkUpsertTransactions,
      (show (pendingReport sid now).status = VerStatus.PENDING from rfl), jsGet_set_self]
  · simp [ingestStatement, hv, saveStatement, upsertAccount, bulkUpsertTransactions,
      saveVerificationReport,
      (show (pendingReport sid now).statementId = sid from rfl), jsGet_set_self]

/-- C10 witness: a concrete call — empty transaction list, no transport,
fallback disabled — evaluated end to end. -/
theorem pending_report_ingestion_witness :
    (⟨"key", "sandbox", none, none, false⟩ : BmlConfig).enableFallbackChecks = false ∧
    (bmlValidate ⟨"key", "sandbox", none, none, false⟩ none
        ⟨⟨none, "acc-1", "bank", "Checking", none, "CHECKING", "USD"⟩,
          ⟨"2024-01-01", "2024-01-31"⟩, 0, 0, [], "USD", StatementSource.PDF, none, []⟩
        "stmt-1" "2024-02-01") =
      pendingReport "stmt-1" "2024-02-01" := by
  refine ⟨rfl, ?_⟩
  exact (pending_report_ingestion ⟨"key", "sandbox", none, none, false⟩ none
    ruleBasedCategorize
    ⟨⟨none, "acc-1", "bank", "Checking", none, "CHECKING", "USD"⟩,
      ⟨"2024-01-01", "2024-01-31"⟩, 0, 0, [], "USD", StatementSource.PDF, none, []⟩
    "stmt-1" "2024-02-01" none emptyStorage [] _ rfl (Or.inl rfl) rfl).1

/-! ## C1 — report persistence and abort policy -/

/-- C1: every document-ingestion call persists the verifier's report
unconditionally (on abort, the resulting store is exactly the input store
with the report saved — so the save precedes the abort decision); the call
raises if and only if the report status is `FAIL` and some issue has `ERROR`
severity; on a raise nothing else is persisted (and the raised error carries
the statement id and the `ERROR` issue codes); otherwise the canonical
account, every assembled transaction, and the statement (carrying the
report's status) are persisted. -/
theorem ingest_report_persisted_and_abort_policy
    (cat : List CatInput → JsMap CatAssignment) (parsed : ParsedStatement)
    (sid : String) (baseCurrency : Option String) (report : VerificationReport)
    (now : String) (st : Storage) (fx : FxCache)
    (out : (Storage × FxCache) × Except IngestError (Statement × VerStatus))
    (hout : out = ingestStatement cat parsed sid baseCurrency report now st fx) :
    jsGet out.1.1.verifications report.statementId = some report ∧
    ((∃ e, out.2 = Except.error e) ↔
      report.status = VerStatus.FAIL ∧ ∃ i ∈ report.issues, i.severity = Severity.ERROR) ∧
    (∀ e, out.2 = Except.error e →
      out.1.1 = saveVerificationReport st report ∧ out.1.2 = fx ∧
      e = ⟨sid, (errorIssues report).map (fun i => i.code)⟩) ∧
    (∀ res, out.2 = Except.ok res →
      res.2 = report.status ∧
      res.1.verificationStatus = report.status ∧
      jsGet out.1.1.statements sid = some res.1 ∧
      jsGet out.1.1.accounts (mapAccount parsed).id = some (mapAccount parsed) ∧
      ∀ t ∈ res.1.transactions, (jsGet out.1.1.transactions t.dedupeHash).isSome) := by
  subst hout
  by_cases hc : report.status = VerStatus.FAIL ∧ errorIssues report ≠ []
  · have hval : ivsValidate st report sid =
        (saveVerificationReport st report,
          Except.error ⟨sid, (errorIssues report).map (fun i => i.code)⟩) := by
      simp [ivsValidate, hc]
    have hrun : ingestStatement cat parsed sid baseCurrency report now st fx =
        ((saveVerificationReport st report, fx),
          Except.error ⟨sid, (errorIssues report).map (fun i => i.code)⟩) := by
      simp [ingestStatement, hval]
    refine ⟨?_, ?_, ?_, ?_⟩
    · simp [hrun, saveVerificationReport, jsGet_set_self]
    · exact ⟨fun _ => ⟨hc.1, (errorIssues_ne_nil_iff report).1 hc.2⟩,
        fun _ => ⟨⟨sid, (errorIssues report).map (fun i => i.code)⟩, by rw [hrun]⟩⟩
    · intro e he
      rw [hrun] at he
      injection he with he
      subst he
      exact ⟨by rw [hrun], by rw [hrun], rfl⟩
    · intro res hres
      rw [hrun] at hres
      simp at hres
  · have hval : ivsValidate st report sid =
        (saveVerificationReport st report, Except.ok report) := by
      simp only [ivsValidate]
      rw [if_neg hc]
    have hnotfail : ¬(report.status = VerStatus.FAIL ∧
        ∃ i ∈ report.issues, i.severity = Severity.ERROR) := by
      intro hcon
      exact hc ⟨hcon.1, (errorIssues_ne_nil_iff report).2 hcon.2⟩
    refine ⟨?_, ?_, ?_, ?_⟩
    · simp [ingestStatement, hval, saveStatement, upsertAccount, bulkUpsertTransactions,
        saveVerificationReport, jsGet_set_self]
    · constructor
      · intro ⟨e, he⟩
        simp [ingestStatement, hval] at he
      · intro hcon
        exact absurd hcon hnotfail
    · intro e he
      simp [ingestStatement, hval] at he
    · intro res hres
      simp only [ingestStatement, hval] at hres ⊢
      cases hres
      refine ⟨rfl, rfl, ?_, ?_, ?_⟩
      · simp [saveStatement, jsGet_set_self]
      · simp [saveStatement, bulkUpsertTransactions, upsertAccount, jsGet_set_self]
      · intro t ht
        have hmem : t ∈ (mapTransactions cat parsed (mapAccount parsed) baseCurrency
            fx).2.filter (fun x => decide (x.dedupeHash = t.dedupeHash)) :=
          List.mem_filter.2 ⟨ht, by simp⟩
        have hchar := jsGet_bulkUpsert
          (upsertAccount (saveVerificationReport st report) (mapAccount parsed))
          (mapTransactions cat parsed (mapAccount parsed) baseCurrency fx).2 t.dedupeHash
        cases hlast : ((mapTransactions cat parsed (mapAccount parsed) baseCurrency
            fx).2.filter (fun x => decide (x.dedupeHash = t.dedupeHash))).getLast? with
        | none =>
          rw [List.getLast?_eq_none_iff] at hlast
          rw [hlast] at hmem
          cases hmem
        | some z =>
          simp only [saveStatement]
          rw [hchar, hlast]
          simp

/-! ## Fallback verifier lemmas -/

/-- Every issue the duplicate scan emits is the constant
`duplicate_transaction` warning. -/
theorem dupIssuesAux_all_eq (txns : List ParsedTransaction) :
    ∀ seen, ∀ i ∈ dupIssuesAux seen txns, i = duplicateTransactionIssue := by
  induction txns with
  | nil => intro seen i hi; cases hi
  | cons t ts ih =>
    intro seen i hi
    by_cases hs : txnSignature t ∈ seen
    · rw [show dupIssuesAux seen (t :: ts) =
          duplicateTransactionIssue :: dupIssuesAux seen ts by
        simp [dupIssuesAux, hs]] at hi
      rcases List.mem_cons.1 hi with rfl | hi2
      · rfl
      · exact ih seen i hi2
    · rw [show dupIssuesAux seen (t :: ts) =
          dupIssuesAux (txnSignature t :: seen) ts by simp [dupIssuesAux, hs]] at hi
      exact ih _ i hi

/-- With pairwise-distinct signatures, none already seen, the duplicate scan
emits nothing. -/
theorem dupIssuesAux_nil_of_nodup (txns : List ParsedTransaction) :
    ∀ seen, (txns.map txnSignature).Nodup →
    (∀ t ∈ txns, txnSignature t ∉ seen) → dupIssuesAux seen txns = [] := by
  induction txns with
  | nil => intro seen _ _; rfl
  | cons t ts ih =>
    intro seen hnd hdis
    simp only [List.map_cons, List.nodup_cons] at hnd
    have hns : txnSignature t ∉ seen := hdis t (List.mem_cons_self t ts)
    rw [show dupIssuesAux seen (t :: ts) =
        dupIssuesAux (txnSignature t :: seen) ts by simp [dupIssuesAux, hns]]
    apply ih _ hnd.2
    intro u hu
    refine (List.mem_cons).not.2 (not_or.2 ⟨?_, hdis u (List.mem_cons_of_mem _ hu)⟩)
    intro heq
    exact hnd.1 (heq ▸ List.mem_map_of_mem txnSignature hu)

/-- A repeated signature (or one already seen) makes the duplicate scan emit
the warning. -/
theorem dupIssuesAux_mem_of_dup (txns : List ParsedTransaction) :
    ∀ seen, (¬(txns.map txnSignature).Nodup ∨ ∃ t ∈ txns, txnSignature t ∈ seen) →
    duplicateTransactionIssue ∈ dupIssuesAux seen txns := by
  induction txns with
  | nil =>
    intro seen h
    rcases h with h | ⟨t, ht, _⟩
    · exact absurd List.nodup_nil h
    · cases ht
  | cons t ts ih =>
    intro seen h
    by_cases hs : txnSignature t ∈ seen
    · rw [show dupIssuesAux seen (t :: ts) =
          duplicateTransactionIssue :: dupIssuesAux seen ts by simp [dupIssuesAux, hs]]
      exact List.mem_cons_self _ _
    · rw [show dupIssuesAux seen (t :: ts) =
          dupIssuesAux (txnSignature t :: seen) ts by simp [dupIssuesAux, hs]]
      apply ih
      rcases h with hnd | ⟨u, hu, hseen⟩
      · simp only [List.map_cons, List.nodup_cons] at hnd
        rcases not_and_or.1 hnd with hmem | hnd2
        · rw [not_not] at hmem
          rcases List.mem_map.1 hmem with ⟨u, hu, hueq⟩
          exact Or.inr ⟨u, hu, by rw [hueq]; exact List.mem_cons_self _ _⟩
        · exact Or.inl hnd2
      · rcases List.mem_cons.1 hu with rfl | hu2
        · exact absurd hseen hs
        · exact Or.inr ⟨u, hu2, List.mem_cons_of_mem _ hseen⟩

/-- The issue list of a fallback report: period issue, then balance issue,
then the duplicate scan. -/
theorem runFallback_issues_eq (stmt : ParsedStatement) (sid now : String) :
    (runFallbackChecks stmt sid now).issues =
      (if jsDateLe stmt.period.start stmt.period.endDate then []
        else [periodInvalidIssue]) ++
      (if |totalActivity stmt - (stmt.closingBalance - stmt.openingBalance)| > 1
        then [balanceMismatchIssue] else []) ++
      dupIssuesAux [] stmt.transactions := rfl

/-- The status of a fallback report, derived from its issue list. -/
theorem runFallback_status_eq (stmt : ParsedStatement) (sid now : String) :
    (runFallbackChecks stmt sid now).status =
      (if (runFallbackChecks stmt sid now).issues.any
          (fun i => decide (i.severity = Severity.ERROR)) then VerStatus.FAIL
        else if (runFallbackChecks stmt sid now).issues.isEmpty then VerStatus.PASS
        else VerStatus.REVIEW) := rfl

/-- The confidence of a fallback report, derived from its status. -/
theorem runFallback_confidence_eq (stmt : ParsedStatement) (sid now : String) :
    (runFallbackChecks stmt sid now).confidence =
      (if (runFallbackChecks stmt sid now).status = VerStatus.PASS then 9 / 10
        else if (runFallbackChecks stmt sid now).status = VerStatus.REVIEW then 6 / 10
        else 1 / 10) := rfl

/-! ## C2 — reconciliation statuses -/

/-- C2 counterexample: a statement with a valid period, an exactly
reconciling transaction sum, and no two rows identical in
(account, date, amount, currency, raw description) — yet the fallback report
is `REVIEW`, not `PASS` with an empty issue list: the duplicate scan compares
dash-joined signature strings, and the two distinct rows (`"a"`,
`"2024-01-02"`) and (`"a-2024"`, `"01-02"`) collide on
`a-2024-01-02-1-USD-x`. -/
theorem fallback_pass_tuple_hypothesis_cex :
    jsDateLe sampleStmtCollide.period.start sampleStmtCollide.period.endDate = true ∧
    (sampleStmtCollide.transactions.map txnTuple).Nodup ∧
    totalActivity sampleStmtCollide =
      sampleStmtCollide.closingBalance - sampleStmtCollide.openingBalance ∧
    txnSignature (samplePT "a" "2024-01-02" "x" 1) =
      txnSignature (samplePT "a-2024" "01-02" "x" 1) ∧
    ¬((runFallbackChecks sampleStmtCollide "sid-x" "now-x").status = VerStatus.PASS ∧
      (runFallbackChecks sampleStmtCollide "sid-x" "now-x").issues = []) ∧
    (runFallbackChecks sampleStmtCollide "sid-x" "now-x").status = VerStatus.REVIEW := by
  have hper : jsDateLe sampleStmtCollide.period.start sampleStmtCollide.period.endDate =
      true := by decide
  have hb : ¬(|totalActivity sampleStmtCollide -
      (sampleStmtCollide.closingBalance - sampleStmtCollide.openingBalance)| > 1) := by
    norm_num [totalActivity, sampleStmtCollide, samplePT]
  have hdup : dupIssuesAux [] sampleStmtCollide.transactions =
      [duplicateTransactionIssue] := by decide
  have hiss : (runFallbackChecks sampleStmtCollide "sid-x" "now-x").issues =
      [duplicateTransactionIssue] := by
    rw [runFallback_issues_eq, if_pos hper, if_neg hb, hdup]
    rfl
  have hstat : (runFallbackChecks sampleStmtCollide "sid-x" "now-x").status =
      VerStatus.REVIEW := by
    rw [runFallback_status_eq, hiss]
    decide
  refine ⟨hper, by decide, ?_, by decide, ?_, hstat⟩
  · norm_num [totalActivity, sampleStmtCollide, samplePT]
  · intro hcon
    rw [hstat] at hcon
    exact absurd hcon.1 (by decide)

/-- C2 (amended): for a statement with a valid period whose rows have
pairwise-distinct dash-joined signatures (identical field tuples always
collide, but so do distinct tuples whose renderings coincide), an exactly
reconciling sum yields a `PASS` report with no issues and confidence 0.9;
and whenever the absolute difference between the transaction sum and the
balance delta exceeds 1, the report contains the `ERROR balance_mismatch`
issue (which carries remediation text) and the status is `FAIL` with
confidence 0.1. -/
theorem fallback_reconciliation_statuses (stmt : ParsedStatement) (sid now : String) :
    (jsDateLe stmt.period.start stmt.period.endDate = true →
      (stmt.transactions.map txnSignature).Nodup →
      totalActivity stmt = stmt.closingBalance - stmt.openingBalance →
      (runFallbackChecks stmt sid now).status = VerStatus.PASS ∧
      (runFallbackChecks stmt sid now).issues = [] ∧
      (runFallbackChecks stmt sid now).confidence = 9 / 10) ∧
    (|totalActivity stmt - (stmt.closingBalance - stmt.openingBalance)| > 1 →
      balanceMismatchIssue ∈ (runFallbackChecks stmt sid now).issues ∧
      balanceMismatchIssue.severity = Severity.ERROR ∧
      balanceMismatchIssue.remediation.isSome ∧
      (runFallbackChecks stmt sid now).status = VerStatus.FAIL ∧
      (runFallbackChecks stmt sid now).confidence = 1 / 10) := by
  constructor
  · intro hper hnd hsum
    have hb : ¬(|totalActivity stmt - (stmt.closingBalance - stmt.openingBalance)| > 1) := by
      rw [hsum]
      simp
    have hiss : (runFallbackChecks stmt sid now).issues = [] := by
      rw [runFallback_issues_eq, if_pos hper, if_neg hb,
        dupIssuesAux_nil_of_nodup stmt.transactions [] hnd (by simp)]
      rfl
    have hstat : (runFallbackChecks stmt sid now).status = VerStatus.PASS := by
      rw [runFallback_status_eq, hiss]
      decide
    refine ⟨hstat, hiss, ?_⟩
    rw [runFallback_confidence_eq, hstat]
    rfl
  · intro hmis
    have hmem : balanceMismatchIssue ∈ (runFallbackChecks stmt sid now).issues := by
      rw [runFallback_issues_eq, if_pos hmis]
      exact List.mem_append_left _ (List.mem_append_right _ (List.mem_cons_self _ _))
    have hstat : (runFallbackChecks stmt sid now).status = VerStatus.FAIL := by
      rw [runFallback_status_eq,
        if_pos (List.any_eq_true.2 ⟨balanceMismatchIssue, hmem, by decide⟩)]
    refine ⟨hmem, rfl, rfl, hstat, ?_⟩
    rw [runFallback_confidence_eq, hstat]
    rfl

/-- C2 witness: the amended statuses evaluated on concrete statements — an
exactly reconciling two-row statement passes with no issues; a statement
missing its balance delta by 99 fails with the mismatch issue. -/
theorem fallback_reconciliation_statuses_witness :
    ((runFallbackChecks sampleStmtPass "s1" "n1").status = VerStatus.PASS ∧
      (runFallbackChecks sampleStmtPass "s1" "n1").issues = [] ∧
      (runFallbackChecks sampleStmtPass "s1" "n1").confidence = 9 / 10) ∧
    (balanceMismatchIssue ∈ (runFallbackChecks sampleStmtMismatch "s2" "n2").issues ∧
      (runFallbackChecks sampleStmtMismatch "s2" "n2").status = VerStatus.FAIL) := by
  constructor
  · exact (fallback_reconciliation_statuses sampleStmtPass "s1" "n1").1 (by decide)
      (by decide) (by norm_num [totalActivity, sampleStmtPass, samplePT])
  · have h := (fallback_reconciliation_statuses sampleStmtMismatch "s2" "n2").2
      (by norm_num [totalActivity, sampleStmtMismatch, samplePT])
    exact ⟨h.1, h.2.2.2.1⟩

/-! ## C4 — duplicate detection -/

/-- C4: a statement containing two rows identical in
(account, date, amount, currency, raw description) always gets the
`WARNING duplicate_transaction` issue; and when duplicates are the only
anomaly (valid period, sum within the tolerance of the balance delta) the
status is `REVIEW` with confidence 0.6 — never `FAIL` from that issue
alone. -/
theorem fallback_duplicate_warning_review (stmt : ParsedStatement) (sid now : String) :
    (¬(stmt.transactions.map txnTuple).Nodup →
      duplicateTransactionIssue ∈ (runFallbackChecks stmt sid now).issues ∧
      duplicateTransactionIssue.severity = Severity.WARNING) ∧
    (¬(stmt.transactions.map txnTuple).Nodup →
      jsDateLe stmt.period.start stmt.period.endDate = true →
      |totalActivity stmt - (stmt.closingBalance - stmt.openingBalance)| ≤ 1 →
      (runFallbackChecks stmt sid now).status = VerStatus.REVIEW ∧
      (runFallbackChecks stmt sid now).confidence = 6 / 10) := by
  have hsig : ∀ h : ¬(stmt.transactions.map txnTuple).Nodup,
      ¬(stmt.transactions.map txnSignature).Nodup := by
    intro h hcon
    apply h
    have hfac : stmt.transactions.map txnSignature =
        (stmt.transactions.map txnTuple).map sigOfTuple := by
      rw [List.map_map]
      rfl
    rw [hfac] at hcon
    exact hcon.of_map
  have hmem : ∀ h : ¬(stmt.transactions.map txnTuple).Nodup,
      duplicateTransactionIssue ∈ (runFallbackChecks stmt sid now).issues := by
    intro h
    rw [runFallback_issues_eq]
    exact List.mem_append_right _
      (dupIssuesAux_mem_of_dup stmt.transactions [] (Or.inl (hsig h)))
  constructor
  · intro h
    exact ⟨hmem h, rfl⟩
  · intro h hper htol
    have hb : ¬(|totalActivity stmt - (stmt.closingBalance - stmt.openingBalance)| > 1) :=
      not_lt.2 htol
    have hiss : (runFallbackChecks stmt sid now).issues =
        dupIssuesAux [] stmt.transactions := by
      rw [runFallback_issues_eq, if_pos hper, if_neg hb]
      rfl
    have hnoerr : (runFallbackChecks stmt sid now).issues.any
        (fun i => decide (i.severity = Severity.ERROR)) = false := by
      rw [hiss]
      rw [List.any_eq_false]
      intro i hi
      rw [dupIssuesAux_all_eq stmt.transactions [] i hi]
      decide
    have hne : ¬(runFallbackChecks stmt sid now).issues.isEmpty = true := by
      rw [List.isEmpty_iff]
      intro hcon
      have := hmem h
      rw [hcon] at this
      exact absurd this (List.not_mem_nil _)
    have hstat : (runFallbackChecks stmt sid now).status = VerStatus.REVIEW := by
      rw [runFallback_status_eq, if_neg (by rw [hnoerr]; simp), if_neg hne]
    refine ⟨hstat, ?_⟩
    rw [runFallback_confidence_eq, hstat]
    rfl

/-- C4 witness: a reconciling statement with two identical rows evaluates to
`REVIEW` at confidence 0.6 with the duplicate warning present. -/
theorem fallback_duplicate_warning_review_witness :
    duplicateTransactionIssue ∈ (runFallbackChecks sampleStmtDup "s3" "n3").issues ∧
    (runFallbackChecks sampleStmtDup "s3" "n3").status = VerStatus.REVIEW ∧
    (runFallbackChecks sampleStmtDup "s3" "n3").confidence = 6 / 10 := by
  have h := fallback_duplicate_warning_review sampleStmtDup "s3" "n3"
  have h2 := h.2 (by decide) (by decide)
    (by norm_num [totalActivity, sampleStmtDup, samplePT])
  exact ⟨(h.1 (by decide)).1, h2.1, h2.2⟩

/-- C1 witness: a concrete failing report (one `ERROR` issue) aborts the
ingestion of a concrete statement while the report itself is persisted. -/
theorem ingest_report_persisted_and_abort_policy_witness :
    (∃ e, (ingestStatement ruleBasedCategorize sampleStmtPass "stmt-9" none
        sampleFailReport "t0" emptyStorage []).2 = Except.error e) ∧
    jsGet (ingestStatement ruleBasedCategorize sampleStmtPass "stmt-9" none
        sampleFailReport "t0" emptyStorage []).1.1.verifications "stmt-9" =
      some sampleFailReport := by
  have h := ingest_report_persisted_and_abort_policy ruleBasedCategorize sampleStmtPass
    "stmt-9" none sampleFailReport "t0" emptyStorage [] _ rfl
  exact ⟨h.2.1.mpr ⟨rfl, balanceMismatchIssue, by decide, rfl⟩, h.1⟩

/-! ## C6 — categorizer -/

/-- C6: the categorizer is total on its batch — every transaction's hash is
assigned (the record entry is the assignment of the last batch element
carrying that hash, so with distinct hashes each transaction gets its own);
the assignment is `categorizeOne`, a pure function of the description and
amount (besides the echoed hash): the first matching rule of the ordered
table at confidence 0.75, otherwise Income / Other Income at 0.4 for
positive amounts, Bills & Utilities / Other Bills at 0.35 for amounts of
magnitude above 500, and Shopping / General Merchandise at 0.35 for
everything else. -/
theorem categorizer_total_first_match_defaults :
    (∀ (txns : List CatInput), ∀ t ∈ txns,
      ∃ t2 ∈ txns, t2.dedupeHash = t.dedupeHash ∧
        (txns.filter (fun x => decide (x.dedupeHash = t.dedupeHash))).getLast? = some t2 ∧
        jsGet (ruleBasedCategorize txns) t.dedupeHash =
          some (categorizeOne t2.dedupeHash t2.description t2.amount)) ∧
    (∀ h desc amount r, firstMatchingRule desc = some r →
      categorizeOne h desc amount = ⟨h, r.category, some r.subCategory, 3 / 4⟩) ∧
    (∀ h desc amount, firstMatchingRule desc = none → amount > 0 →
      categorizeOne h desc amount = ⟨h, "Income", some "Other Income", 2 / 5⟩) ∧
    (∀ h desc amount, firstMatchingRule desc = none → ¬amount > 0 → |amount| > 500 →
      categorizeOne h desc amount =
        ⟨h, "Bills & Utilities", some "Other Bills", 7 / 20⟩) ∧
    (∀ h desc amount, firstMatchingRule desc = none → ¬amount > 0 → ¬|amount| > 500 →
      categorizeOne h desc amount =
        ⟨h, "Shopping", some "General Merchandise", 7 / 20⟩) := by
  refine ⟨?_, ?_, ?_, ?_, ?_⟩
  · intro txns t ht
    have hmem : t ∈ txns.filter (fun x => decide (x.dedupeHash = t.dedupeHash)) :=
      List.mem_filter.2 ⟨ht, by simp⟩
    cases hlast : (txns.filter (fun x => decide (x.dedupeHash = t.dedupeHash))).getLast?
      with
    | none =>
      rw [List.getLast?_eq_none_iff] at hlast
      rw [hlast] at hmem
      cases hmem
    | some t2 =>
      have ht2mem : t2 ∈ txns.filter (fun x => decide (x.dedupeHash = t.dedupeHash)) := by
        obtain ⟨hne, heq⟩ := List.mem_getLast?_eq_getLast hlast
        rw [heq]
        exact List.getLast_mem hne
      have ht2f := List.mem_filter.1 ht2mem
      refine ⟨t2, ht2f.1, by simpa using ht2f.2, rfl, ?_⟩
      have hgen := jsGet_foldl_set (fun x : CatInput => x.dedupeHash)
        (fun x : CatInput => categorizeOne x.dedupeHash x.description x.amount)
        txns [] t.dedupeHash
      rw [show ruleBasedCategorize txns =
          txns.foldl (fun acc x =>
            jsSet acc x.dedupeHash (categorizeOne x.dedupeHash x.description x.amount)) []
          from rfl, hgen, hlast]
      rfl
  · intro h desc amount r hr
    simp [categorizeOne, hr]
  · intro h desc amount hr hpos
    simp [categorizeOne, hr, if_pos hpos]
  · intro h desc amount hr hpos habs
    simp [categorizeOne, hr, if_neg hpos, if_pos habs]
  · intro h desc amount hr hpos habs
    simp [categorizeOne, hr, if_neg hpos, if_neg habs]

/-- C6 witness: a three-element batch — a rule match, an unmatched positive
amount, an unmatched large negative amount — evaluated concretely. -/
theorem categorizer_total_first_match_defaults_witness :
    jsGet (ruleBasedCategorize
        [⟨"h1", "STARBUCKS #55", -6, "USD"⟩, ⟨"h2", "zzzqqq", 10, "USD"⟩,
          ⟨"h3", "zzzqqq", -600, "USD"⟩]) "h1" =
      some (categorizeOne "h1" "STARBUCKS #55" (-6)) ∧
    (categorizeOne "h1" "STARBUCKS #55" (-6)).category = "Food & Dining" ∧
    categorizeOne "h2" "zzzqqq" 10 = ⟨"h2", "Income", some "Other Income", 2 / 5⟩ ∧
    categorizeOne "h3" "zzzqqq" (-600) =
      ⟨"h3", "Bills & Utilities", some "Other Bills", 7 / 20⟩ := by
  have h := categorizer_total_first_match_defaults
  refine ⟨rfl, by decide, ?_, ?_⟩
  · exact h.2.2.1 "h2" "zzzqqq" 10 (by decide) (by norm_num)
  · exact h.2.2.2.1 "h3" "zzzqqq" (-600) (by decide) (by norm_num) (by norm_num)

/-! ## C3 — dedupe hashing and upsert idempotence -/

/-- The dedupe hash assembled for a row is the digest of its serialized
fields. -/
theorem assembleTransaction_dedupeHash (account : Account)
    (baseCurrency : Option String) (c : JsMap CatAssignment) (fx : FxCache)
    (t : ParsedTransaction) :
    (assembleTransaction account baseCurrency c fx t).2.dedupeHash =
      buildTransactionHash (hashInputFor account.id t) := rfl

/-- The hash list produced by the assembly loop: one hash per parsed row, a
function of the account id and the row alone. -/
theorem mapTransactions_hashes (cat : List CatInput → JsMap CatAssignment)
    (parsed : ParsedStatement) (account : Account) (baseCurrency : Option String)
    (fx : FxCache) :
    (mapTransactions cat parsed account baseCurrency fx).2.map (fun t => t.dedupeHash) =
      parsed.transactions.map
        (fun t => buildTransactionHash (hashInputFor account.id t)) := by
  have hgen : ∀ (ts : List ParsedTransaction) (c : JsMap CatAssignment)
      (fx0 : FxCache) (acc : List Transaction),
      ((ts.foldl (fun acc t =>
          let r := assembleTransaction account baseCurrency c acc.1 t
          (r.1, acc.2 ++ [r.2])) (fx0, acc)).2).map (fun t => t.dedupeHash) =
        acc.map (fun t => t.dedupeHash) ++
          ts.map (fun t => buildTransactionHash (hashInputFor account.id t)) := by
    intro ts
    induction ts with
    | nil => intro c fx0 acc; simp
    | cons t ts ih =>
      intro c fx0 acc
      simp only [List.foldl_cons, List.map_cons]
      rw [ih]
      simp [assembleTransaction_dedupeHash]
  simpa using hgen parsed.transactions (cat (categorizationInput parsed account)) fx []

/-- C3: the dedupe hash is a pure function of exactly the five normalized
fields — account id, posted date, amount to two decimals, upper-cased
currency, trimmed lower-cased normalized description; storage lookup after a
bulk upsert is keyed by the hash and returns the last upserted record per
hash (at most one stored record per hash); re-running the same bulk upsert
changes nothing; and the hash list of an ingestion depends only on the
parsed source rows and account — not on the categorizer or the rate-cache
state — so re-ingesting identical source data re-derives the identical hash
set. -/
theorem dedupe_hash_determinism_and_upsert :
    (∀ i1 i2 : TransactionHashInput,
      i1.accountId = i2.accountId → i1.postedDate = i2.postedDate →
      toFixed2 i1.amount = toFixed2 i2.amount →
      upperStr i1.currency = upperStr i2.currency →
      lowerStr (trimStr i1.normalizedDescription) =
        lowerStr (trimStr i2.normalizedDescription) →
      buildTransactionHash i1 = buildTransactionHash i2) ∧
    (∀ (st : Storage) (l : List Transaction) (k : String),
      jsGet (bulkUpsertTransactions st l).transactions k =
        ((l.filter (fun x => decide (x.dedupeHash = k))).getLast?).elim
          (jsGet st.transactions k) (fun x => some x)) ∧
    (∀ (st : Storage) (l : List Transaction) (k : String),
      jsGet (bulkUpsertTransactions (bulkUpsertTransactions st l) l).transactions k =
        jsGet (bulkUpsertTransactions st l).transactions k) ∧
    (∀ (cat1 cat2 : List CatInput → JsMap CatAssignment) (parsed : ParsedStatement)
        (account : Account) (baseCurrency : Option String) (fx1 fx2 : FxCache),
      (mapTransactions cat1 parsed account baseCurrency fx1).2.map
          (fun t => t.dedupeHash) =
        (mapTransactions cat2 parsed account baseCurrency fx2).2.map
          (fun t => t.dedupeHash)) := by
  refine ⟨?_, jsGet_bulkUpsert, ?_, ?_⟩
  · intro i1 i2 h1 h2 h3 h4 h5
    simp [buildTransactionHash, sha256HexModel, serializeHashInput, h1, h2, h3, h4, h5]
  · intro st l k
    rw [jsGet_bulkUpsert, jsGet_bulkUpsert]
    cases hf : (l.filter (fun x => decide (x.dedupeHash = k))).getLast? with
    | none => simp [jsGet_bulkUpsert, hf]
    | some x => simp
  · intro cat1 cat2 parsed account baseCurrency fx1 fx2
    rw [mapTransactions_hashes, mapTransactions_hashes]

/-- C3 witness: currency case and description trim/case do not change the
hash — two inputs with equal normalized fields hash identically. -/
theorem dedupe_hash_determinism_and_upsert_witness :
    buildTransactionHash ⟨"acc", "2024-01-02", 25 / 2, "usd", " Grocery Store "⟩ =
      buildTransactionHash ⟨"acc", "2024-01-02", 25 / 2, "USD", "grocery store"⟩ := by
  exact dedupe_hash_determinism_and_upsert.1
    ⟨"acc", "2024-01-02", 25 / 2, "usd", " Grocery Store "⟩
    ⟨"acc", "2024-01-02", 25 / 2, "USD", "grocery store"⟩
    rfl rfl rfl (by decide) (by decide)

/-! ## C9 — statement deletion cascade -/

/-- A successful lookup names an entry of the map. -/
theorem mem_of_jsGet_eq_some {α : Type} (m : JsMap α) (k : String) (v : α)
    (h : jsGet m k = some v) : (k, v) ∈ m := by
  induction m with
  | nil => cases h
  | cons p t ih =>
    rw [jsGet] at h
    by_cases hk : p.1 = k
    · rw [if_pos hk] at h
      injection h with h2
      refine List.mem_cons.2 (Or.inl ?_)
      obtain ⟨p1, p2⟩ := p
      simp only at hk h2
      rw [hk, h2]
    · rw [if_neg hk] at h
      exact List.mem_cons_of_mem _ (ih h)

/-- With pairwise-distinct keys, every entry is found by lookup. -/
theorem jsGet_eq_some_of_mem_nodup {α : Type} (m : JsMap α) (k : String) (v : α)
    (hnd : (m.map Prod.fst).Nodup) (hm : (k, v) ∈ m) : jsGet m k = some v := by
  induction m with
  | nil => cases hm
  | cons p t ih =>
    simp only [List.map_cons, List.nodup_cons] at hnd
    rcases List.mem_cons.1 hm with rfl | hm2
    · simp [jsGet]
    · rw [jsGet]
      have hpk : ¬p.1 = k := by
        intro hcon
        exact hnd.1 (hcon ▸ List.mem_map_of_mem Prod.fst hm2)
      rw [if_neg hpk]
      exact ih hnd.2 hm2

/-- Deleting a list of keys in sequence: lookup is `none` on the list's
members and untouched elsewhere. -/
theorem jsGet_foldl_delete {α : Type} (keys : List String) (m : JsMap α) (k : String) :
    jsGet (keys.foldl jsDelete m) k = if k ∈ keys then none else jsGet m k := by
  induction keys generalizing m with
  | nil => simp
  | cons kk ks ih =>
    simp only [List.foldl_cons]
    rw [ih]
    by_cases hks : k ∈ ks
    · simp [hks, List.mem_cons]
    · by_cases hkk : k = kk
      · subst hkk
        simp [hks, jsGet_delete_self]
      · simp [hks, hkk, jsGet_delete_ne m kk k hkk]

/-- The hashes collected for deletion are exactly the keys whose stored
transaction is on the account (keys pairwise distinct). -/
theorem mem_deleteKeys_iff (m : JsMap Transaction) (aid k : String)
    (hnd : (m.map Prod.fst).Nodup) :
    k ∈ (m.filter (fun p => decide (p.2.accountId = aid))).map Prod.fst ↔
      ∃ t, jsGet m k = some t ∧ t.accountId = aid := by
  constructor
  · intro hk
    obtain ⟨p, hp, hpk⟩ := List.mem_map.1 hk
    have hpf := List.mem_filter.1 hp
    refine ⟨p.2, ?_, by simpa using hpf.2⟩
    apply jsGet_eq_some_of_mem_nodup m k p.2 hnd
    have : p = (k, p.2) := by
      obtain ⟨p1, p2⟩ := p
      simp only at hpk
      rw [hpk]
    rw [← this]
    exact hpf.1
  · intro ⟨t, hget, haid⟩
    exact List.mem_map.2 ⟨(k, t),
      List.mem_filter.2 ⟨mem_of_jsGet_eq_some m k t hget, by simpa using haid⟩, rfl⟩

/-- C9: deleting an unknown statement id changes nothing; deleting a stored
statement removes it, removes exactly the transactions on its account,
removes the account precisely when no remaining statement references it,
removes the statement's verification report, and leaves every other
statement, transaction, account and report unchanged. (The transaction map
has pairwise-distinct keys — the `Map` invariant.) -/
theorem delete_statement_cascade (st : Storage) (sid : String) :
    (jsGet st.statements sid = none → deleteStatement st sid = st) ∧
    (∀ stmt, jsGet st.statements sid = some stmt →
      (st.transactions.map Prod.fst).Nodup →
      jsGet (deleteStatement st sid).statements sid = none ∧
      (∀ other, other ≠ sid →
        jsGet (deleteStatement st sid).statements other = jsGet st.statements other) ∧
      (∀ k t, jsGet st.transactions k = some t →
        jsGet (deleteStatement st sid).transactions k =
          if t.accountId = stmt.account.id then none else some t) ∧
      (∀ k, jsGet st.transactions k = none →
        jsGet (deleteStatement st sid).transactions k = none) ∧
      ((∃ p ∈ jsDelete st.statements sid, p.2.account.id = stmt.account.id) →
        jsGet (deleteStatement st sid).accounts stmt.account.id =
          jsGet st.accounts stmt.account.id) ∧
      (¬(∃ p ∈ jsDelete st.statements sid, p.2.account.id = stmt.account.id) →
        jsGet (deleteStatement st sid).accounts stmt.account.id = none) ∧
      (∀ a, a ≠ stmt.account.id →
        jsGet (deleteStatement st sid).accounts a = jsGet st.accounts a) ∧
      jsGet (deleteStatement st sid).verifications sid = none ∧
      (∀ other, other ≠ sid →
        jsGet (deleteStatement st sid).verifications other =
          jsGet st.verifications other)) := by
  constructor
  · intro hnone
    simp [deleteStatement, hnone]
  · intro stmt hstmt hnd
    have hany : ((jsDelete st.statements sid).any
          (fun p => decide (p.2.account.id = stmt.account.id)) = true) ↔
        ∃ p ∈ jsDelete st.statements sid, p.2.account.id = stmt.account.id := by
      simp [List.any_eq_true]
    have hdel : deleteStatement st sid =
        { accounts :=
            if (jsDelete st.statements sid).any
                (fun p => decide (p.2.account.id = stmt.account.id))
            then st.accounts else jsDelete st.accounts stmt.account.id,
          statements := jsDelete st.statements sid,
          transactions :=
            (((st.transactions.filter
                (fun p => decide (p.2.accountId = stmt.account.id))).map
              Prod.fst).foldl jsDelete st.transactions),
          verifications := jsDelete st.verifications sid } := by
      simp [deleteStatement, hstmt]
    rw [hdel]
    refine ⟨jsGet_delete_self _ _, fun other hne => jsGet_delete_ne _ _ _ hne,
      ?_, ?_, ?_, ?_, ?_, jsGet_delete_self _ _,
      fun other hne => jsGet_delete_ne _ _ _ hne⟩
    · intro k t hget
      simp only
      rw [jsGet_foldl_delete]
      by_cases haid : t.accountId = stmt.account.id
      · rw [if_pos ((mem_deleteKeys_iff st.transactions stmt.account.id k hnd).2
          ⟨t, hget, haid⟩), if_pos haid]
      · rw [if_neg ?_, if_neg haid]
        · exact hget
        · intro hk
          obtain ⟨t2, hget2, haid2⟩ :=
            (mem_deleteKeys_iff st.transactions stmt.account.id k hnd).1 hk
          rw [hget] at hget2
          injection hget2 with h2
          exact haid (h2 ▸ haid2)
    · intro k hget
      simp only
      rw [jsGet_foldl_delete]
      by_cases hk : k ∈ (st.transactions.filter
          (fun p => decide (p.2.accountId = stmt.account.id))).map Prod.fst
      · rw [if_pos hk]
      · rw [if_neg hk]
        exact hget
    · intro href
      simp only
      rw [if_pos (hany.2 href)]
    · intro href
      simp only
      rw [if_neg (fun hcon => href (hany.1 hcon))]
      exact jsGet_delete_self _ _
    · intro a hne
      simp only
      by_cases hc : (jsDelete st.statements sid).any
          (fun p => decide (p.2.account.id = stmt.account.id)) = true
      · rw [if_pos hc]
      · rw [if_neg hc]
        exact jsGet_delete_ne _ _ _ hne

/-- C9 witness: deleting statement `S1` from the two-account sample store
removes `S1`, the `A1` transaction and the now-orphaned `A1` account, and the
`S1` report, while statement `S2`, the `A2` transaction and account `A2`
survive. -/
theorem delete_statement_cascade_witness :
    jsGet (deleteStatement sampleStore "S1").statements "S1" = none ∧
    jsGet (deleteStatement sampleStore "S1").statements "S2" =
      some (sampleDomStatement "S2" "A2") ∧
    jsGet (deleteStatement sampleStore "S1").transactions "h1" = none ∧
    jsGet (deleteStatement sampleStore "S1").transactions "h2" =
      some (sampleTxn "t2" "A2" "h2" 7) ∧
    jsGet (deleteStatement sampleStore "S1").accounts "A1" = none ∧
    jsGet (deleteStatement sampleStore "S1").accounts "A2" =
      some (sampleDomAccount "A2") ∧
    jsGet (deleteStatement sampleStore "S1").verifications "S1" = none := by
  obtain ⟨hA, hB, hC, hD, hE, hF, hG, hH, hI⟩ :=
    (delete_statement_cascade sampleStore "S1").2 (sampleDomStatement "S1" "A1")
      (by decide) (by decide)
  refine ⟨hA, ?_, ?_, ?_, ?_, ?_, hH⟩
  · rw [hB "S2" (by decide)]
    decide
  · rw [hC "h1" (sampleTxn "t1" "A1" "h1" 5) (by decide)]
    decide
  · rw [hC "h2" (sampleTxn "t2" "A2" "h2" 7) (by decide)]
    decide
  · exact hF (by decide)
  · rw [hG "A2" (by decide)]
    decide

/-! ## C7 — normalizer lemmas -/

/-- `dropWhile` is the identity when the head fails the predicate. -/
theorem dropWhile_of_head_not {α : Type} (p : α → Bool) (l : List α)
    (h : ∀ c, l.head? = some c → p c = false) : l.dropWhile p = l := by
  cases l with
  | nil => rfl
  | cons c t => simp [List.dropWhile_cons, h c rfl]

/-- Trimming drops a leading whitespace character. -/
theorem trim_ws_cons (c : Char) (x : List Char) (hc : isJsWs c = true) :
    trimChars (c :: x) = trimChars x := by
  simp [trimChars, List.dropWhile_cons, hc]

/-- Trimming is the identity on a list with non-whitespace head and last. -/
theorem trim_of_clean (l : List Char)
    (h1 : ∀ c, l.head? = some c → isJsWs c = false)
    (h2 : ∀ c, l.getLast? = some c → isJsWs c = false) :
    trimChars l = l := by
  unfold trimChars
  rw [dropWhile_of_head_not isJsWs l h1,
    dropWhile_of_head_not isJsWs l.reverse
      (fun c hc => h2 c (by rwa [List.head?_reverse] at hc)),
    List.reverse_reverse]

/-- Trimming removes exactly one trailing space from a clean nonempty
list. -/
theorem trim_append_space (l : List Char) (hne : l ≠ [])
    (h1 : ∀ c, l.head? = some c → isJsWs c = false)
    (h2 : ∀ c, l.getLast? = some c → isJsWs c = false) :
    trimChars (l ++ [' ']) = l := by
  unfold trimChars
  rw [dropWhile_of_head_not isJsWs (l ++ [' ']) ?hh]
  case hh =>
    intro c hc
    apply h1
    cases l with
    | nil => exact absurd rfl hne
    | cons a t => simpa using hc
  rw [show (l ++ [' ']).reverse = ' ' :: l.reverse by simp]
  rw [show List.dropWhile isJsWs (' ' :: l.reverse) = List.dropWhile isJsWs l.reverse by
    simp [List.dropWhile_cons, show isJsWs ' ' = true from rfl]]
  rw [dropWhile_of_head_not isJsWs l.reverse
    (fun c hc => h2 c (by rwa [List.head?_reverse] at hc)), List.reverse_reverse]

/-- The two collapse flags trim to the same result: a leading whitespace run
becomes at most one leading space, which trimming removes. -/
theorem trim_collapse_false_eq_true (cs : List Char) :
    trimChars (collapseWsAux false cs) = trimChars (collapseWsAux true cs) := by
  cases cs with
  | nil => rfl
  | cons c t =>
    by_cases hc : isJsWs c
    · rw [show collapseWsAux false (c :: t) = ' ' :: collapseWsAux true t by
          simp [collapseWsAux, hc],
        show collapseWsAux true (c :: t) = collapseWsAux true t by
          simp [collapseWsAux, hc]]
      exact trim_ws_cons ' ' _ rfl
    · rw [show collapseWsAux false (c :: t) = c :: collapseWsAux false t by
          simp [collapseWsAux, hc],
        show collapseWsAux true (c :: t) = c :: collapseWsAux false t by
          simp [collapseWsAux, hc]]

/-- Collapsing walks through a run of non-whitespace characters untouched. -/
theorem collapse_false_word_append (w rest : List Char)
    (hw : ∀ c ∈ w, isJsWs c = false) :
    collapseWsAux false (w ++ rest) = w ++ collapseWsAux false rest := by
  induction w with
  | nil => rfl
  | cons c cs ih =>
    rw [List.cons_append,
      show collapseWsAux false (c :: (cs ++ rest)) =
        c :: collapseWsAux false (cs ++ rest) by
        simp [collapseWsAux, hw c (List.mem_cons_self c cs)],
      ih (fun x hx => hw x (List.mem_cons_of_mem c hx))]
    rfl

/-- A list whose word split is empty is all whitespace. -/
theorem all_ws_of_splitWs_nil :
    ∀ (n : Nat) (l : List Char), l.length ≤ n → splitWs l = [] →
    ∀ c ∈ l, isJsWs c = true := by
  intro n
  induction n with
  | zero =>
    intro l hl _ c hc
    rw [List.length_eq_zero.1 (Nat.le_zero.1 hl)] at hc
    cases hc
  | succ n ih =>
    intro l hl hsp c hc
    cases l with
    | nil => cases hc
    | cons a t =>
      by_cases ha : isJsWs a
      · rw [show splitWs (a :: t) = splitWs t by simp [splitWs, ha]] at hsp
        rcases List.mem_cons.1 hc with rfl | hct
        · exact ha
        · exact ih t (Nat.le_of_succ_le_succ hl) hsp c hct
      · rw [show splitWs (a :: t) =
            (a :: t.takeWhile (fun d => !isJsWs d)) ::
              splitWs (t.dropWhile (fun d => !isJsWs d)) by
            simp [splitWs, ha]] at hsp
        cases hsp

/-- Every word of a split is nonempty and free of whitespace. -/
theorem splitWs_words :
    ∀ (n : Nat) (l : List Char), l.length ≤ n → ∀ w ∈ splitWs l,
    w ≠ [] ∧ ∀ c ∈ w, isJsWs c = false := by
  intro n
  induction n with
  | zero =>
    intro l hl w hw
    rw [List.length_eq_zero.1 (Nat.le_zero.1 hl)] at hw
    simp [splitWs] at hw
  | succ n ih =>
    intro l hl w hw
    cases l with
    | nil => simp [splitWs] at hw
    | cons a t =>
      by_cases ha : isJsWs a
      · rw [show splitWs (a :: t) = splitWs t by simp [splitWs, ha]] at hw
        exact ih t (Nat.le_of_succ_le_succ hl) w hw
      · rw [show splitWs (a :: t) =
            (a :: t.takeWhile (fun d => !isJsWs d)) ::
              splitWs (t.dropWhile (fun d => !isJsWs d)) by
            simp [splitWs, ha]] at hw
        rcases List.mem_cons.1 hw with rfl | hw2
        · refine ⟨by simp, ?_⟩
          intro c hc
          rcases List.mem_cons.1 hc with rfl | hc2
          · simpa using ha
          · have := List.mem_takeWhile_imp hc2
            simpa using this
        · refine ih (t.dropWhile (fun d => !isJsWs d)) ?_ w hw2
          calc (t.dropWhile (fun d => !isJsWs d)).length
              ≤ t.length := (List.dropWhile_suffix _).sublist.length_le
            _ ≤ n := Nat.le_of_succ_le_succ hl

/-- Joining nonempty words yields a nonempty list. -/
theorem joinWords_ne_nil (W : List (List Char)) (hW : W ≠ [])
    (hw : ∀ w ∈ W, w ≠ []) : joinWords W ≠ [] := by
  cases W with
  | nil => exact absurd rfl hW
  | cons w rest =>
    cases rest with
    | nil => exact hw w (List.mem_cons_self _ _)
    | cons r rs =>
      rw [show joinWords (w :: r :: rs) = w ++ ' ' :: joinWords (r :: rs) from rfl]
      simp

/-- The head of a join of clean words is not whitespace. -/
theorem joinWords_head_not_ws (W : List (List Char))
    (hw : ∀ w ∈ W, w ≠ [] ∧ ∀ c ∈ w, isJsWs c = false) :
    ∀ c, (joinWords W).head? = some c → isJsWs c = false := by
  cases W with
  | nil => intro c hc; cases hc
  | cons w rest =>
    have hwne := (hw w (List.mem_cons_self _ _)).1
    have hwc := (hw w (List.mem_cons_self _ _)).2
    cases rest with
    | nil =>
      intro c hc
      exact hwc c (List.mem_of_mem_head? hc)
    | cons r rs =>
      intro c hc
      rw [show joinWords (w :: r :: rs) = w ++ ' ' :: joinWords (r :: rs) from rfl] at hc
      cases w with
      | nil => exact absurd rfl hwne
      | cons a t =>
        rw [List.cons_append, List.head?_cons] at hc
        injection hc with hc
        exact hwc c (hc ▸ List.mem_cons_self a t)

/-- The last character of a join of clean words is not whitespace. -/
theorem joinWords_last_not_ws (W : List (List Char))
    (hw : ∀ w ∈ W, w ≠ [] ∧ ∀ c ∈ w, isJsWs c = false) :
    ∀ c, (joinWords W).getLast? = some c → isJsWs c = false := by
  induction W with
  | nil => intro c hc; cases hc
  | cons w rest ih =>
    have hwne := (hw w (List.mem_cons_self _ _)).1
    have hwc := (hw w (List.mem_cons_self _ _)).2
    cases rest with
    | nil =>
      intro c hc
      obtain ⟨hne, heq⟩ := List.mem_getLast?_eq_getLast hc
      exact hwc c (heq ▸ List.getLast_mem hne)
    | cons r rs =>
      intro c hc
      rw [show joinWords (w :: r :: rs) = w ++ ' ' :: joinWords (r :: rs) from rfl,
        List.getLast?_append_cons] at hc
      have hjne : joinWords (r :: rs) ≠ [] :=
        joinWords_ne_nil (r :: rs) (by simp)
          (fun u hu => (hw u (List.mem_cons_of_mem _ hu)).1)
      cases hj : joinWords (r :: rs) with
      | nil => exact absurd hj hjne
      | cons x xs =>
        rw [hj, List.getLast?_cons_cons] at hc
        apply ih (fun u hu => hw u (List.mem_cons_of_mem _ hu)) c
        rw [hj]
        cases xs with
        | nil => simpa using hc
        | cons y ys => rwa [List.getLast?_cons_cons]

/-- The collapse of a list with the leading-whitespace flag set: the words
joined by single spaces, plus one trailing space when the list ends in
whitespace after at least one word. -/
theorem collapse_true_join :
    ∀ (n : Nat) (cs : List Char), cs.length ≤ n →
    collapseWsAux true cs =
      joinWords (splitWs cs) ++
        (if splitWs cs = [] then [] else if lastIsWs cs then [' '] else []) := by
  intro n
  induction n with
  | zero =>
    intro cs h
    rw [List.length_eq_zero.1 (Nat.le_zero.1 h)]
    simp [collapseWsAux, splitWs, joinWords]
  | succ n ih =>
    intro cs hlen
    cases cs with
    | nil => simp [collapseWsAux, splitWs, joinWords]
    | cons c cs2 =>
      by_cases hc : isJsWs c
      · rw [show collapseWsAux true (c :: cs2) = collapseWsAux true cs2 by
            simp [collapseWsAux, hc],
          show splitWs (c :: cs2) = splitWs cs2 by simp [splitWs, hc],
          ih cs2 (Nat.le_of_succ_le_succ hlen)]
        by_cases hsp : splitWs cs2 = []
        · simp [hsp]
        · have hcs2 : cs2 ≠ [] := by
            intro hcon
            rw [hcon] at hsp
            exact hsp (by simp [splitWs])
          rw [show lastIsWs (c :: cs2) = lastIsWs cs2 by
            unfold lastIsWs
            cases cs2 with
            | nil => exact absurd rfl hcs2
            | cons d t => rw [List.getLast?_cons_cons]]
      · rw [show collapseWsAux true (c :: cs2) = c :: collapseWsAux false cs2 by
            simp [collapseWsAux, hc],
          show splitWs (c :: cs2) =
            (c :: cs2.takeWhile (fun d => !isJsWs d)) ::
              splitWs (cs2.dropWhile (fun d => !isJsWs d)) by simp [splitWs, hc]]
        have htw : ∀ x ∈ cs2.takeWhile (fun d => !isJsWs d), isJsWs x = false := by
          intro x hx
          simpa using List.mem_takeWhile_imp hx
        have hsplit : collapseWsAux false cs2 =
            cs2.takeWhile (fun d => !isJsWs d) ++
              collapseWsAux false (cs2.dropWhile (fun d => !isJsWs d)) := by
          conv_lhs => rw [← List.takeWhile_append_dropWhile (p := fun d => !isJsWs d)
            (l := cs2)]
          exact collapse_false_word_append _ _ htw
        rw [hsplit]
        have hdroplen : (cs2.dropWhile (fun d => !isJsWs d)).length ≤ cs2.length :=
          (List.dropWhile_suffix _).sublist.length_le
        cases hrest : cs2.dropWhile (fun d => !isJsWs d) with
        | nil =>
          rw [show splitWs ([] : List Char) = [] by simp [splitWs],
            show collapseWsAux false [] = [] from rfl]
          have htake : cs2.takeWhile (fun d => !isJsWs d) = cs2 := by
            conv_rhs => rw [← List.takeWhile_append_dropWhile (p := fun d => !isJsWs d)
              (l := cs2), hrest]
            simp
          have hlast : lastIsWs (c :: cs2) = false := by
            unfold lastIsWs
            cases hg : (c :: cs2).getLast? with
            | none => rfl
            | some d =>
              obtain ⟨hne, heq⟩ := List.mem_getLast?_eq_getLast hg
              have hd : d ∈ c :: cs2 := heq ▸ List.getLast_mem hne
              rcases List.mem_cons.1 hd with rfl | hd2
              · simp [hc]
              · rw [← htake] at hd2
                simp [htw d hd2]
          rw [hlast]
          simp [joinWords]
        | cons r rest2 =>
          have hrws : isJsWs r = true := by
            have : (fun d => !isJsWs d) r = false := by
              have hgen : ∀ (l : List Char) (r0 : List Char),
                  l.dropWhile (fun d => !isJsWs d) = r :: r0 →
                  (fun d => !isJsWs d) r = false := by
                intro l
                induction l with
                | nil => intro r0 h; cases h
                | cons a t iha =>
                  intro r0 h
                  by_cases ha : (fun d => !isJsWs d) a = true
                  · rw [List.dropWhile_cons, if_pos ha] at h
                    exact iha r0 h
                  · rw [List.dropWhile_cons,
                      if_neg (by simpa using ha)] at h
                    injection h with h1 _
                    rw [← h1]
                    simpa using ha
              exact hgen cs2 rest2 hrest
            simpa using this
          rw [show collapseWsAux false (r :: rest2) = ' ' :: collapseWsAux true rest2 by
            simp [collapseWsAux, hrws],
            show splitWs (r :: rest2) = splitWs rest2 by simp [splitWs, hrws]]
          have hlen2 : rest2.length ≤ n := by
            have : (r :: rest2).length ≤ cs2.length := hrest ▸ hdroplen
            have hc2 : cs2.length ≤ n := Nat.le_of_succ_le_succ hlen
            simp only [List.length_cons] at this
            omega
          rw [ih rest2 hlen2]
          have hlastw : cs2 ≠ [] → (c :: cs2).getLast? = cs2.getLast? := by
            intro hne
            cases cs2 with
            | nil => exact absurd rfl hne
            | cons d t => rw [List.getLast?_cons_cons]
          have hcs2ne : cs2 ≠ [] := by
            intro hcon
            rw [hcon] at hrest
            simp at hrest
          have hcs2dec : cs2 = cs2.takeWhile (fun d => !isJsWs d) ++ r :: rest2 := by
            conv_lhs => rw [← List.takeWhile_append_dropWhile (p := fun d => !isJsWs d)
              (l := cs2), hrest]
          by_cases hsp2 : splitWs rest2 = []
          · -- the tail after the first word is all whitespace
            have hallws : ∀ x ∈ rest2, isJsWs x = true :=
              all_ws_of_splitWs_nil rest2.length rest2 le_rfl hsp2
            have hlast : lastIsWs (c :: cs2) = true := by
              unfold lastIsWs
              rw [hlastw hcs2ne, hcs2dec, List.getLast?_append_cons]
              cases hg : (r :: rest2).getLast? with
              | none => simp at hg
              | some d =>
                obtain ⟨hne, heq⟩ := List.mem_getLast?_eq_getLast hg
                have hd : d ∈ r :: rest2 := heq ▸ List.getLast_mem hne
                rcases List.mem_cons.1 hd with rfl | hd2
                · simp [hrws]
                · simp [hallws d hd2]
            rw [hsp2, hlast]
            simp [joinWords]
          · have hlast2 : lastIsWs (c :: cs2) = lastIsWs rest2 := by
              unfold lastIsWs
              rw [hlastw hcs2ne, hcs2dec, List.getLast?_append_cons]
              have hrest2ne : rest2 ≠ [] := by
                intro hcon
                rw [hcon] at hsp2
                exact hsp2 (by simp [splitWs])
              cases rest2 with
              | nil => exact absurd rfl hrest2ne
              | cons y ys => rw [List.getLast?_cons_cons]
            rw [hlast2]
            have hjw : joinWords ((c :: cs2.takeWhile (fun d => !isJsWs d)) ::
                splitWs rest2) =
                (c :: cs2.takeWhile (fun d => !isJsWs d)) ++
                  ' ' :: joinWords (splitWs rest2) := by
              cases hsw : splitWs rest2 with
              | nil => exact absurd hsw hsp2
              | cons u us => rfl
            rw [hjw]
            simp [hsp2]

/-- Collapsing then trimming equals joining the maximal non-whitespace runs
with single spaces. -/
theorem trim_collapse (m : List Char) :
    trimChars (collapseWs m) = joinWords (splitWs m) := by
  unfold collapseWs
  rw [trim_collapse_false_eq_true m, collapse_true_join m.length m le_rfl]
  by_cases hsp : splitWs m = []
  · simp [hsp, joinWords, trimChars]
  · have hwords := splitWs_words m.length m le_rfl
    have hne : joinWords (splitWs m) ≠ [] :=
      joinWords_ne_nil _ hsp (fun w hw => (hwords w hw).1)
    have hhead := joinWords_head_not_ws (splitWs m) hwords
    have hlast := joinWords_last_not_ws (splitWs m) hwords
    by_cases hl : lastIsWs m
    · rw [if_neg hsp, if_pos hl]
      exact trim_append_space _ hne hhead hlast
    · rw [if_neg hsp, if_neg hl, List.append_nil]
      exact trim_of_clean _ hhead hlast

/-! ## C7 — description normalizer -/

/-- C7 counterexample: underscores match the regex class `\w`, so they
survive normalization — the output of `normalizeDescription "a_b"` contains
a character that is neither alphanumeric nor a space, contradicting the
claim that every non-alphanumeric character is collapsed to spaces. -/
theorem normalize_underscore_cex :
    normalizeDescription "a_b" = "a_b" ∧
    ¬(∀ c ∈ (normalizeDescription "a_b").data, c.isAlphanum = true ∨ c = ' ') := by
  decide

/-- C7 (amended): the normalizer is the total function that decomposes the
input, replaces every character that is neither a word character
(alphanumeric or underscore) nor whitespace by a space, joins the maximal
non-whitespace runs with single spaces (collapsing runs and trimming the
ends), and lowercases — underscores are preserved, not replaced. Stated as
equality with an independently formulated model of that sentence. -/
theorem normalize_output_shape (s : String) :
    normalizeDescription s = specNormalizeModel s := by
  unfold normalizeDescription specNormalizeModel
  have hmap : replacePunct (nfkdModel s).data =
      (nfkdModel s).data.map (fun c => if isWordChar c || isJsWs c then c else ' ') := by
    unfold replacePunct
    congr 1
    funext c
    cases hw : isWordChar c <;> cases hs : isJsWs c <;> simp [hw, hs]
  rw [hmap]
  exact congrArg String.mk (congrArg (List.map Char.toLower)
    (trim_collapse ((nfkdModel s).data.map
      (fun c => if isWordChar c || isJsWs c then c else ' '))))

/-! ## C8 — balance inference lemmas -/

/-- `findSome?` succeeds only through one of the list's elements. -/
theorem exists_of_findSome_eq_some {α β : Type} (f : α → Option β) (l : List α) (b : β)
    (h : l.findSome? f = some b) : ∃ a ∈ l, f a = some b := by
  induction l with
  | nil => cases h
  | cons x t ih =>
    cases hfx : f x with
    | some v =>
      rw [show (x :: t).findSome? f = some v by simp [List.findSome?_cons, hfx]] at h
      injection h with h
      exact ⟨x, List.mem_cons_self _ _, by rw [hfx, h]⟩
    | none =>
      rw [show (x :: t).findSome? f = t.findSome? f by
        simp [List.findSome?_cons, hfx]] at h
      obtain ⟨a, ha, hfa⟩ := ih h
      exact ⟨a, List.mem_cons_of_mem _ ha, hfa⟩

/-- The balance pattern captures only digits, commas and a dot — the capture
group is `[\d,]+\.?\d*`. -/
theorem matchBalanceAt_chars (labels : List String) (l : List Char) (cap : List Char)
    (h : matchBalanceAt labels l = some cap) :
    ∀ c ∈ cap, isDigitOrComma c = true ∨ c = '.' := by
  unfold matchBalanceAt at h
  obtain ⟨w, _, hfw⟩ := exists_of_findSome_eq_some _ _ _ h
  simp only [] at hfw
  split at hfw
  case isTrue h1 =>
    split at hfw
    case isTrue h2 => cases hfw
    case isFalse h2 =>
      split at hfw
      case isTrue h3 =>
        split at hfw
        case isTrue h4 => cases hfw
        case isFalse h4 =>
          split at hfw
          case isTrue h5 => cases hfw
          case isFalse h5 =>
            split at hfw
            next r hr =>
              injection hfw with hfw
              subst hfw
              intro c hc
              rcases List.mem_append.1 hc with hdc | hdot
              · exact Or.inl (List.mem_takeWhile_imp hdc)
              · rcases List.mem_cons.1 hdot with rfl | hds
                · exact Or.inr rfl
                · exact Or.inl (by
                    simp [isDigitOrComma, List.mem_takeWhile_imp hds])
            next hr =>
              injection hfw with hfw
              subst hfw
              intro c hc
              exact Or.inl (List.mem_takeWhile_imp hc)
      case isFalse h3 => cases hfw
  case isFalse h1 => cases hfw

/-- The line scan inherits the capture character classes. -/
theorem scanBalance_chars (labels : List String) :
    ∀ (l cap : List Char), scanBalance labels l = some cap →
    ∀ c ∈ cap, isDigitOrComma c = true ∨ c = '.' := by
  intro l
  induction l with
  | nil => intro cap h; cases h
  | cons c0 cs ih =>
    intro cap h
    cases hm : matchBalanceAt labels (c0 :: cs) with
    | some cap2 =>
      rw [show scanBalance labels (c0 :: cs) = some cap2 by
        rw [scanBalance]; rw [hm]] at h
      injection h with h
      exact h ▸ matchBalanceAt_chars labels (c0 :: cs) cap2 hm
    | none =>
      rw [show scanBalance labels (c0 :: cs) = scanBalance labels cs by
        rw [scanBalance]; rw [hm]] at h
      exact ih cap h

/-- An unsigned parse is nonnegative. -/
theorem parseFloatUnsigned_nonneg (l : List Char) (q : ℚ)
    (h : parseFloatUnsigned l = some q) : 0 ≤ q := by
  unfold parseFloatUnsigned at h
  simp only [] at h
  split at h
  next =>
    split at h
    case isTrue => cases h
    case isFalse =>
      injection h with h
      rw [← h]
      exact add_nonneg (Nat.cast_nonneg _)
        (div_nonneg (Nat.cast_nonneg _) (by positivity))
  next =>
    split at h
    case isTrue => cases h
    case isFalse =>
      injection h with h
      rw [← h]
      exact Nat.cast_nonneg _

/-- Without a leading sign, `parseFloat` parses the unsigned form. -/
theorem parseFloatQ_nonneg_of_no_sign (l : List Char)
    (hhead : ∀ c, l.head? = some c → c ≠ '-' ∧ c ≠ '+') (q : ℚ)
    (h : parseFloatQ l = some q) : 0 ≤ q := by
  unfold parseFloatQ at h
  split at h
  next rest => exact absurd rfl (hhead '-' rfl).1
  next rest => exact absurd rfl (hhead '+' rfl).2
  next => exact parseFloatUnsigned_nonneg l q h

/-- `parseAmount` of a balance capture — digits, commas, a dot — is
nonnegative: nothing in the capture can trigger the negative branch. -/
theorem parseAmount_capture_nonneg (cap : List Char)
    (hchars : ∀ c ∈ cap, isDigitOrComma c = true ∨ c = '.') (q : ℚ)
    (h : parseAmount (String.mk cap) = some q) : 0 ≤ q := by
  unfold parseAmount at h
  simp only [] at h
  have hnop : cap.contains '(' = false := by
    rw [← Bool.not_eq_true]
    intro hcon
    rw [List.contains_iff_exists_mem_beq] at hcon
    obtain ⟨b, hb, hbeq⟩ := hcon
    rw [beq_iff_eq] at hbeq
    rcases hchars b hb with hx | hx <;> rw [← hbeq] at hx <;> exact absurd hx (by decide)
  have hnom : decide (cap.head? = some '-') = false := by
    rw [decide_eq_false_iff_not]
    intro hcon
    have hmem : '-' ∈ cap := List.mem_of_mem_head? hcon
    rcases hchars '-' hmem with hx | hx <;> exact absurd hx (by decide)
  rw [hnop, hnom] at h
  cases hpf : parseFloatQ (cap.filter (fun c => !(decide (c = '$') || decide (c = ',')
      || isJsWs c))) with
  | none => rw [hpf] at h; cases h
  | some v =>
    rw [hpf] at h
    simp at h
    rw [← h]
    apply parseFloatQ_nonneg_of_no_sign _ ?_ v hpf
    intro c hc
    have hmem : c ∈ cap := List.mem_of_mem_filter (List.mem_of_mem_head? hc)
    rcases hchars c hmem with hx | hx
    · constructor <;> intro hcon <;> rw [hcon] at hx <;> exact absurd hx (by decide)
    · rw [hx]
      exact ⟨by decide, by decide⟩

/-- A captured balance line writes a nonnegative value. -/
theorem capture_parse_nonneg (labels : List String) (line cap : String)
    (h : (scanBalance labels (lowerStr line).data).map String.mk = some cap)
    (q : ℚ) (hp : parseAmount cap = some q) : 0 ≤ q := by
  rw [Option.map_eq_some'] at h
  obtain ⟨cap0, hscan, rfl⟩ := h
  exact parseAmount_capture_nonneg cap0
    (scanBalance_chars labels (lowerStr line).data cap0 hscan) q hp

/-- The balance fold preserves nonnegativity of both running balances. -/
theorem extractBalances_fold_nonneg (lines : List String)
    (acc : Option ℚ × Option ℚ)
    (hinv : (∀ q, acc.1 = some q → 0 ≤ q) ∧ (∀ q, acc.2 = some q → 0 ≤ q)) :
    (∀ q, (lines.foldl
        (fun acc line =>
          let acc1 :=
            match openingBalanceCapture line with
            | some cap => (parseAmount cap, acc.2)
            | none => acc
          match closingBalanceCapture line with
          | some cap => (acc1.1, parseAmount cap)
          | none => acc1) acc).1 = some q → 0 ≤ q) ∧
    (∀ q, (lines.foldl
        (fun acc line =>
          let acc1 :=
            match openingBalanceCapture line with
            | some cap => (parseAmount cap, acc.2)
            | none => acc
          match closingBalanceCapture line with
          | some cap => (acc1.1, parseAmount cap)
          | none => acc1) acc).2 = some q → 0 ≤ q) := by
  induction lines generalizing acc with
  | nil => exact hinv
  | cons line rest ih =>
    rw [List.foldl_cons]
    apply ih
    cases hoc : openingBalanceCapture line with
    | some cap =>
      cases hcc : closingBalanceCapture line with
      | some cap2 =>
        simp only [hoc, hcc]
        exact ⟨fun q hq => capture_parse_nonneg openingLabels line cap hoc q hq,
          fun q hq => capture_parse_nonneg closingLabels line cap2 hcc q hq⟩
      | none =>
        simp only [hoc, hcc]
        exact ⟨fun q hq => capture_parse_nonneg openingLabels line cap hoc q hq,
          hinv.2⟩
    | none =>
      cases hcc : closingBalanceCapture line with
      | some cap2 =>
        simp only [hoc, hcc]
        exact ⟨hinv.1,
          fun q hq => capture_parse_nonneg closingLabels line cap2 hcc q hq⟩
      | none =>
        simp only [hoc, hcc]
        exact hinv

/-! ## C8 — balance inference -/

/-- C8 counterexample: a minus-prefixed or parenthesized balance does not
produce a negative balance — the capture group `[\d,]+\.?\d*` accepts only
unsigned amounts, so neither line matches and both balances keep the default
0 instead of the claimed −1500. -/
theorem extract_balances_negative_cex :
    extractBalances ["Opening Balance: -1,500.00"] = (some 0, some 0) ∧
    extractBalances ["Opening Balance: (1,500.00)"] = (some 0, some 0) ∧
    (some (0 : ℚ) ≠ some (-1500 : ℚ)) := by
  refine ⟨by decide, by decide, by decide⟩

/-- C8 (amended): the extractor's balance inference strips currency symbols
and thousands separators from a matched unsigned amount and produces that
(necessarily nonnegative) value — minus-prefixed or parenthesized balance
amounts never match the pattern, leaving the default 0. `parseAmount` itself
(used for transaction amounts) does map a minus-prefixed string to a
nonpositive value. -/
theorem extract_balances_unsigned :
    (∀ (lines : List String) (q : ℚ),
      ((extractBalances lines).1 = some q → 0 ≤ q) ∧
      ((extractBalances lines).2 = some q → 0 ≤ q)) ∧
    (∀ (s : String) (q : ℚ), s.data.head? = some '-' → parseAmount s = some q →
      q ≤ 0) ∧
    extractBalances ["Opening Balance: $1,234", "New Balance: 2,000"] =
      (some 1234, some 2000) := by
  refine ⟨?_, ?_, by decide⟩
  · intro lines q
    have h := extractBalances_fold_nonneg lines (some 0, some 0)
      ⟨fun q hq => by cases hq; exact le_refl 0,
        fun q hq => by cases hq; exact le_refl 0⟩
    exact ⟨h.1 q, h.2 q⟩
  · intro s q hhead hp
    unfold parseAmount at hp
    simp only [] at hp
    rw [show decide (s.data.head? = some '-') = true by rw [hhead]; decide] at hp
    cases hpf : parseFloatQ (s.data.filter (fun c => !(decide (c = '$') ||
        decide (c = ',') || isJsWs c))) with
    | none => rw [hpf] at hp; cases hp
    | some v =>
      rw [hpf] at hp
      simp at hp
      rw [← hp]
      exact neg_nonpos.2 (abs_nonneg v)

/-- C8 witness: the amended statements evaluated concretely — the extracted
opening balance 1234 is nonnegative, and `parseAmount "-7"` is
nonpositive. -/
theorem extract_balances_unsigned_witness :
    (0 : ℚ) ≤ 1234 ∧ ∃ q, parseAmount "-7" = some q ∧ q ≤ 0 := by
  constructor
  · refine (extract_balances_unsigned.1
      ["Opening Balance: $1,234", "New Balance: 2,000"] 1234).1 ?_
    rw [extract_balances_unsigned.2.2]
  · refine ⟨-7, by decide, extract_balances_unsigned.2.1 "-7" (-7) (by decide)
      (by decide)⟩
